import Mathlib

/-!
PHSX815 Week 6 (HW7): the `Random` generator and the rejection-sampling loop of `CoSim`.

A shallow embedding of `src/HW7/Random.cpp` and of the integration loop of
`src/HW7/CoSim.cpp`, followed by theorems about them.

Conventions of the embedding.

An `unsigned long long` is a 64-bit word: a `Nat` reduced modulo `2^64` after every operation
that can leave the range (`*`, `+`, `<<`).

An `int` is a 32-bit signed integer: an `Int`; an operation whose mathematical result leaves
`[INT_MIN, INT_MAX]` is undefined behaviour in C++ and is reported as `Fault.overflow`.

A `double` is an IEEE-754 binary64 number, with round-to-nearest, ties-to-even: a sign, a
significand below `2^53` and a binary exponent, or an infinity, or a NaN.  The exponent is
unbounded in the model; every value computed from the generator below has magnitude `0` or
between `2^-64` and `2^32`, far from the overflow and subnormal ranges of binary64.

The loops `while` and `do ... while` take a fuel argument and report `Fault.fuel` when it runs
out.

The functions `sqrt`, `cos` and `sin` are not modelled: the acceptance test of the integration
loop, a function of the three uniform deviates drawn by `SampleCyl`, is a parameter `inside`.
The estimate and the error pushed on the result vectors are functions of the two counters; the
records of the model hold the counters.  The functions `Record.approxDouble` and
`Record.errorDouble` give the two values as the code computes them in `double`, from a value of
`PI`, whose source `acos(-1.0)` is not modelled; `Record.approx` and `Record.error` give them
in exact arithmetic.
-/

namespace HW7

/-! Machine constants -/

/-- Number of values of an `unsigned long long`. -/
def two64 : Nat := 18446744073709551616

/-- Largest `int`. -/
def INT_MAX : Int := 2147483647

/-- Smallest `int`. -/
def INT_MIN : Int := -2147483648

/-! `double` -/

/-- An IEEE-754 value: `fin neg mant exp` is `(-1)^neg * mant * 2^exp`. -/
inductive Double where
  | fin (neg : Bool) (mant : Nat) (exp : Int)
  | inf (neg : Bool)
  | nan
deriving DecidableEq, Repr

/-- Worker of `ilog2`: the first argument bounds the number of halvings. -/
def ilog2Aux : Nat → Nat → Nat
  | 0, _ => 0
  | fuel + 1, n => if n < 2 then 0 else ilog2Aux fuel (n / 2) + 1

/-- Position of the leading bit of `n`: `2^(ilog2 n) ≤ n < 2^(ilog2 n + 1)` for `n ≠ 0`. -/
def ilog2 (n : Nat) : Nat := ilog2Aux n n

/-- Round `n * 2^e` to a 53-bit significand, to nearest, ties to even. -/
def round53 (n : Nat) (e : Int) : Nat × Int :=
  if n < 2 ^ 53 then (n, e)
  else
    let k := ilog2 n - 52
    let q := n / 2 ^ k
    let r := n % 2 ^ k
    let q := if 2 ^ k < 2 * r ∨ (2 * r = 2 ^ k ∧ q % 2 = 1) then q + 1 else q
    if q = 2 ^ 53 then (2 ^ 52, e + k + 1) else (q, e + k)

namespace Double

/-- The double nearest to `n * 2^e`, with the given sign. -/
def rounded (neg : Bool) (n : Nat) (e : Int) : Double :=
  fin neg (round53 n e).1 (round53 n e).2

/-- The literal `0.`. -/
def zero : Double := fin false 0 0

/-- The literal `1.0`. -/
def one : Double := fin false 1 0

/-- Conversion of an `unsigned long long` to `double`. -/
def ofUInt64 (n : Nat) : Double := rounded false n 0

/-- Conversion of an `int` to `double` (exact: an `int` has fewer than 53 bits). -/
def ofInt (n : Int) : Double := rounded (decide (n < 0)) n.natAbs 0

/-- The integer `(-1)^neg * mant * 2^(exp - e)`, for `e ≤ exp`. -/
def scaled (neg : Bool) (mant : Nat) (exp e : Int) : Int :=
  (if neg then -1 else 1) * ((mant * 2 ^ (exp - e).toNat : Nat) : Int)

/-- The comparison `a < b` of C++ on doubles. -/
def lt : Double → Double → Bool
  | nan, _ => false
  | _, nan => false
  | inf true, inf true => false
  | inf true, _ => true
  | _, inf true => false
  | inf false, _ => false
  | fin _ _ _, inf false => true
  | fin s1 m1 e1, fin s2 m2 e2 =>
    decide (scaled s1 m1 e1 (min e1 e2) < scaled s2 m2 e2 (min e1 e2))

/-- The comparison `a <= b` of C++ on doubles. -/
def le : Double → Double → Bool
  | nan, _ => false
  | _, nan => false
  | inf true, _ => true
  | _, inf true => false
  | _, inf false => true
  | inf false, fin _ _ _ => false
  | fin s1 m1 e1, fin s2 m2 e2 =>
    decide (scaled s1 m1 e1 (min e1 e2) ≤ scaled s2 m2 e2 (min e1 e2))

/-- The product `a * b` of C++ on doubles. -/
def mul : Double → Double → Double
  | nan, _ => nan
  | _, nan => nan
  | inf s1, inf s2 => inf (xor s1 s2)
  | inf s1, fin s2 m _ => if m = 0 then nan else inf (xor s1 s2)
  | fin s1 m _, inf s2 => if m = 0 then nan else inf (xor s1 s2)
  | fin s1 m1 e1, fin s2 m2 e2 => rounded (xor s1 s2) (m1 * m2) (e1 + e2)

/-- The sum `a + b` of C++ on doubles. -/
def add : Double → Double → Double
  | nan, _ => nan
  | _, nan => nan
  | inf s1, inf s2 => if s1 = s2 then inf s1 else nan
  | inf s1, fin _ _ _ => inf s1
  | fin _ _ _, inf s2 => inf s2
  | fin s1 m1 e1, fin s2 m2 e2 =>
    let c := scaled s1 m1 e1 (min e1 e2) + scaled s2 m2 e2 (min e1 e2)
    rounded (decide (c < 0)) c.natAbs (min e1 e2)

/-- The cast `(int)x`: truncation toward zero; undefined (`none`) when the truncated value is not
an `int`, or `x` is not finite. -/
def toInt : Double → Option Int
  | fin neg m e =>
    let t : Int := if 0 ≤ e then ((m * 2 ^ e.toNat : Nat) : Int) else ((m / 2 ^ (-e).toNat : Nat) : Int)
    let t := if neg then -t else t
    if INT_MIN ≤ t ∧ t ≤ INT_MAX then some t else none
  | _ => none

/-- The negation `-a` of C++ on doubles. -/
def neg : Double → Double
  | fin s m e => fin (!s) m e
  | inf s => inf (!s)
  | nan => nan

/-- The difference `a - b` of C++ on doubles. -/
def sub (a b : Double) : Double := add a (neg b)

/-- The function `std::abs` on doubles. -/
def abs : Double → Double
  | fin _ m e => fin false m e
  | inf _ => inf false
  | nan => nan

/-- The quotient `a / b` of C++ on doubles.  For finite operands the quotient of the significands
is taken with at least 55 bits and a sticky last bit, which rounds like the exact quotient. -/
def div : Double → Double → Double
  | nan, _ => nan
  | _, nan => nan
  | inf _, inf _ => nan
  | inf s1, fin s2 _ _ => inf (xor s1 s2)
  | fin s1 _ _, inf s2 => fin (xor s1 s2) 0 0
  | fin s1 m1 e1, fin s2 m2 e2 =>
    if m2 = 0 then (if m1 = 0 then nan else inf (xor s1 s2))
    else
      let s := 55 + ilog2 m2 - ilog2 m1
      let n := m1 * 2 ^ s / m2
      let sticky := if m1 * 2 ^ s % m2 = 0 then 0 else 1
      rounded (xor s1 s2) (2 * n + sticky) (e1 - e2 - s - 1)

/-- The rational number a finite double stands for (`0` for infinities and NaN). -/
def toRat : Double → ℚ
  | fin neg m e => (if neg then -1 else 1) * (m : ℚ) * (2 : ℚ) ^ e
  | _ => 0

end Double

/-! `Random` (Random.h, Random.cpp) -/

/-- The private members `m_u`, `m_v`, `m_w` of `class Random`. -/
structure Random where
  m_u : Nat
  m_v : Nat
  m_w : Nat
deriving DecidableEq, Repr

namespace Random

/-- A state whose three members are 64-bit words. -/
def WellFormed (s : Random) : Prop := s.m_u < two64 ∧ s.m_v < two64 ∧ s.m_w < two64

instance (s : Random) : Decidable s.WellFormed := by
  unfold WellFormed; infer_instance

/-- The method `Random::int64`: the value returned and the state left behind. -/
def int64 (s : Random) : Nat × Random :=
  let u := (s.m_u * 2862933555777941757 + 7046029254386353087) % two64
  let v := s.m_v
  let v := v ^^^ (v >>> 17)
  let v := v ^^^ ((v <<< 31) % two64)
  let v := v ^^^ (v >>> 8)
  let w := (4294957665 * (s.m_w &&& 0xffffffff) + (s.m_w >>> 32)) % two64
  let x := u ^^^ ((u <<< 21) % two64)
  let x := x ^^^ (x >>> 35)
  let x := x ^^^ ((x <<< 4) % two64)
  (((x + v) % two64) ^^^ w, { m_u := u, m_v := v, m_w := w })

/-- The new `m_u` of `int64`: `m_u * 2862933555777941757LL + 7046029254386353087LL`. -/
def stepU (u : Nat) : Nat := (u * 2862933555777941757 + 7046029254386353087) % two64

/-- The new `m_v` of `int64`: the three xor-shifts by 17, 31 and 8. -/
def stepV (v : Nat) : Nat :=
  let v := v ^^^ (v >>> 17)
  let v := v ^^^ ((v <<< 31) % two64)
  v ^^^ (v >>> 8)

/-- The new `m_w` of `int64`: `4294957665U*(m_w & 0xffffffff) + (m_w >> 32)`. -/
def stepW (w : Nat) : Nat := (4294957665 * (w &&& 0xffffffff) + (w >>> 32)) % two64

/-- The members right after the three assignments that open the constructor
`Random::Random(seed)`, before its first call of `int64`. -/
def seeded (seed : Nat) : Random :=
  let m_v := 4101842887655102017
  let m_w := 1
  let m_u := seed ^^^ m_v
  { m_u := m_u, m_v := m_v, m_w := m_w }

/-- The double denoted by the literal `5.42101086242752217E-20`: `2^-64`
(see `scale_nearest_literal`). -/
def scale : Double := Double.fin false (2 ^ 52) (-116)

/-- The method `Random::rand`: the deviate returned and the state left behind. -/
def rand (s : Random) : Double × Random :=
  let (x, s) := s.int64
  (Double.mul scale (Double.ofUInt64 x), s)

/-- The method `Random::Bernoulli`. -/
def Bernoulli (p : Double) (s : Random) : Int × Random :=
  if Double.lt p Double.zero || Double.lt Double.one p then (1, s)
  else
    let (r, s) := s.rand
    if Double.lt r p then (1, s) else (0, s)

/-- The method `Random::Categorical`; the value is `none` when the cast `(int)R` is undefined. -/
def Categorical (n : Int) (s : Random) : Option Int × Random :=
  let n := if n < 3 then 3 else n
  let (r, s) := s.rand
  let R := Double.add Double.one (Double.mul (Double.ofInt n) r)
  (Double.toInt R, s)

end Random

/-- The constructor `Random::Random(seed)`. -/
def Random.Random (seed : Nat) : Random :=
  let s := Random.seeded seed
  let s := s.int64.2
  let s := { s with m_v := s.m_u }
  let s := s.int64.2
  let s := { s with m_w := s.m_v }
  let s := s.int64.2
  s

/-! The integration loop of `main` (CoSim.cpp) -/

/-- What stops a run short of its result: undefined behaviour by `int` overflow, or the fuel of a
loop running out. -/
inductive Fault where
  | overflow
  | fuel
deriving DecidableEq, Repr

/-- The variables the accept/reject loop changes: the global `rng` and the locals `successes`
and `trials` of `main`. -/
structure State where
  rng : Random
  successes : Int
  trials : Int
deriving DecidableEq, Repr

/-- One entry of the result vectors: `samplecount.back()`, and the counters that `approx.back()`
and `error.back()` are computed from. -/
structure Record where
  samplecount : Int
  successes : Int
  trials : Int
deriving DecidableEq, Repr

/-- The function `SampleCyl`, as far as the generator is concerned: it calls `rng.rand()` three
times, for `r = sqrt(rng.rand())`, for `t = 2.0*PI*rng.rand()` and for
`X[0] = (-PI/2.0) + PI*rng.rand()`, in this order.  The value is the three deviates drawn, from
which the source computes `X` with `sqrt`, `cos` and `sin`. -/
def SampleCyl (rng : Random) : (Double × Double × Double) × Random :=
  let (r, rng) := rng.rand
  let (t, rng) := rng.rand
  let (x, rng) := rng.rand
  ((r, t, x), rng)

/-- The call `SampleCyl(X)` followed by the acceptance test
`sqrt(X[1]*X[1] + X[2]*X[2]) < RevCos(X)`; `inside` is the outcome of the test as a function of
the three deviates drawn by `SampleCyl`. -/
def trial (inside : Double → Double → Double → Bool) (rng : Random) : Bool × Random :=
  let (d, rng) := SampleCyl rng
  (inside d.1 d.2.1 d.2.2, rng)

/-- The body of `while(successes < samples)`: `++trials`, a trial, `++successes` on acceptance. -/
def body (inside : Double → Double → Double → Bool) (st : State) : Except Fault State :=
  if st.trials = INT_MAX then .error .overflow
  else
    let (accepted, rng) := trial inside st.rng
    if accepted then
      if st.successes = INT_MAX then .error .overflow
      else .ok { rng := rng, successes := st.successes + 1, trials := st.trials + 1 }
    else .ok { rng := rng, successes := st.successes, trials := st.trials + 1 }

/-- The loop `while(successes < samples){ ... }`. -/
def sampleLoop (inside : Double → Double → Double → Bool) (samples : Int) :
    Nat → State → Except Fault State
  | 0, st => if st.successes < samples then .error .fuel else .ok st
  | fuel + 1, st =>
    if st.successes < samples then
      match body inside st with
      | .error f => .error f
      | .ok st => sampleLoop inside samples fuel st
    else .ok st

/-- The loop `do{ ... } while(min < max)`: `cap` is the fuel of each inner loop, the first `Nat`
argument the fuel of the outer loop, `out` the result vectors so far. -/
def sweep (inside : Double → Double → Double → Bool) (cap : Nat) (max step : Int) :
    Nat → State → Int → List Record → Except Fault (List Record)
  | 0, _, _, _ => .error .fuel
  | fuel + 1, st, min, out =>
    let samples := min
    match sampleLoop inside samples cap st with
    | .error f => .error f
    | .ok st =>
      let out := out ++ [{ samplecount := samples, successes := st.successes, trials := st.trials }]
      if min + step < INT_MIN ∨ INT_MAX < min + step then .error .overflow
      else
        let min := min + step
        if min < max then sweep inside cap max step fuel st min out else .ok out

/-- Lines 146 to 181 of `main`, after the command line is parsed: the result vectors. -/
def main (inside : Double → Double → Double → Bool) (cap fuel : Nat) (rng : Random)
    (mode samples min max step : Int) : Except Fault (List Record) :=
  let min := if mode = 0 then samples else min
  let max := if mode = 0 then min else max
  sweep inside cap max step fuel { rng := rng, successes := 0, trials := 0 } min []

/-- The double nearest to `π`, `0x1.921FB54442D18p+1`: the value of the global
`PI = acos(-1.0)` when `acos` is correctly rounded at `-1`. -/
def PI_nearest : Double := Double.fin false 7074237752028440 (-51)

/-- The global `CYL_VOL = PI*PI`. -/
def CYL_VOL (PI : Double) : Double := Double.mul PI PI

/-- The global `ANALYTICAL = CYL_VOL/2`. -/
def ANALYTICAL (PI : Double) : Double := Double.div (CYL_VOL PI) (Double.ofInt 2)

/-- The value pushed on `approx`: `(double(successes)/trials) * CYL_VOL`. -/
def Record.approxDouble (r : Record) (PI : Double) : Double :=
  Double.mul (Double.div (Double.ofInt r.successes) (Double.ofInt r.trials)) (CYL_VOL PI)

/-- The value pushed on `error`: `abs(1.0 - (approx.back()/ANALYTICAL))`. -/
def Record.errorDouble (r : Record) (PI : Double) : Double :=
  Double.abs (Double.sub Double.one (Double.div (r.approxDouble PI) (ANALYTICAL PI)))

/-- The estimate in exact arithmetic: `(successes/trials) * V` for a bounding volume `V`. -/
def Record.approx {K : Type} [Field K] (r : Record) (V : K) : K :=
  ((r.successes : K) / (r.trials : K)) * V

/-- The relative error in exact arithmetic: `|1 - estimate/(V/2)|`. -/
def Record.error {K : Type} [LinearOrderedField K] (r : Record) (V : K) : K :=
  |1 - r.approx V / (V / 2)|

/-- The generator state after `n` trials made from the state `rng`. -/
def afterTrials (inside : Double → Double → Double → Bool) : Nat → Random → Random
  | 0, rng => rng
  | n + 1, rng => (trial inside (afterTrials inside n rng)).2

/-- The number of accepted trials among the first `n` trials made from the generator state
`rng`. -/
def acceptedAmong (inside : Double → Double → Double → Bool) : Nat → Random → Nat
  | 0, _ => 0
  | n + 1, rng =>
    (if (trial inside rng).1 then 1 else 0) + acceptedAmong inside n (trial inside rng).2

/-- The sweep as the specification words it: every run starts from fresh counters
(`successes = 0`, `trials = 0`) while the generator state carries over. -/
def specSweepFresh (inside : Double → Double → Double → Bool) (cap : Nat) (max step : Int) :
    Nat → Random → Int → List Record → Except Fault (List Record)
  | 0, _, _, _ => .error .fuel
  | fuel + 1, rng, min, out =>
    let samples := min
    match sampleLoop inside samples cap { rng := rng, successes := 0, trials := 0 } with
    | .error f => .error f
    | .ok st =>
      let out := out ++ [{ samplecount := samples, successes := st.successes, trials := st.trials }]
      if min + step < INT_MIN ∨ INT_MAX < min + step then .error .overflow
      else
        let min := min + step
        if min < max then specSweepFresh inside cap max step fuel st.rng min out else .ok out

/-- The number of sample counts the specification lists for a sweep:
`max(1, ceil((max - min)/step))`. -/
def sweepLength (min max step : Int) : Nat :=
  (Max.max 1 ⌈((max - min : Int) : ℚ) / (step : ℚ)⌉).toNat

/-- The sample counts the specification lists for a sweep: `min + k*step` for
`k = 0, ..., sweepLength - 1`. -/
def sweepCounts (min max step : Int) : List Int :=
  (List.range (sweepLength min max step)).map (fun (k : Nat) => min + (k : Int) * step)

/-- A sample acceptance test, used to run the loop on concrete inputs: accept when the first
deviate is below the third. -/
def sampleInside (r _t x : Double) : Bool := Double.lt r x

/-- An acceptance test that accepts every proposal. -/
def alwaysInside (_r _t _x : Double) : Bool := true

/-- The rational number `m * 2^e` that a significand and an exponent stand for. -/
def val (p : Nat × Int) : ℚ := (p.1 : ℚ) * (2 : ℚ) ^ p.2

/-- The double `d` is non-negative and finite and is the rational `x` rounded: no double lies
strictly between `x` and the value of `d`. -/
def Rounds (d : Double) (x : ℚ) : Prop :=
  ∃ (m : Nat) (e : Int), d = Double.fin false m e ∧ m < 2 ^ 53 ∧
    (∀ (B : Nat) (f : Int), B < 2 ^ 53 → x ≤ (B : ℚ) * (2 : ℚ) ^ f →
      (m : ℚ) * (2 : ℚ) ^ e ≤ (B : ℚ) * (2 : ℚ) ^ f) ∧
    (∀ (B : Nat) (f : Int), B < 2 ^ 53 → (B : ℚ) * (2 : ℚ) ^ f ≤ x →
      (B : ℚ) * (2 : ℚ) ^ f ≤ (m : ℚ) * (2 : ℚ) ^ e)

/-- A generator state whose next `int64()` is `2^64 - 1`. -/
def nearOne : Random :=
  { m_u := 7087845728196725427, m_v := 5944484424170598830, m_w := 10416361709513050026 }

/-- A generator state whose next `int64()` is `2^64 - 2048`. -/
def belowOne : Random :=
  { m_u := 7087845728196725427, m_v := 5944484424170598830, m_w := 10416359068108162986 }

deriving instance DecidableEq for Except

/-! Theorems: the generator -/

theorem int64_snd (s : Random) :
    s.int64.2
      = { m_u := Random.stepU s.m_u, m_v := Random.stepV s.m_v, m_w := Random.stepW s.m_w } :=
  rfl

theorem int64_fst_lt (s : Random) : s.int64.1 < 2 ^ 64 := by
  have h : (0 : Nat) < 2 ^ 64 := by decide
  exact Nat.xor_lt_two_pow (Nat.mod_lt _ h) (Nat.mod_lt _ h)

/-- C7. The state left by one call of `int64` differs from the state before the call, for every
state: `int64` has no fixed point, because its update of `m_u` has none. -/
theorem C7_int64_no_fixed_point (s : Random) : s.int64.2 ≠ s := by
  intro h
  have hu := congrArg Random.m_u h
  rw [int64_snd] at hu
  simp only [Random.stepU, two64] at hu
  omega

/-- C6, as the claim states it, fails for the default seed 5555: the constructed state is not
the state reached from the initial members by three calls of `int64` alone. -/
theorem C6_constructor_ne_three_draws :
    Random.Random 5555 ≠ (Random.seeded 5555).int64.2.int64.2.int64.2 := by
  decide

/-- C6, amended. For every seed the constructor sets `m_v = 4101842887655102017`, `m_w = 1`,
`m_u = seed ^ m_v`, calls `int64`, copies `m_u` into `m_v`, calls `int64`, copies `m_v` into
`m_w`, and calls `int64` a third time.  So all three members of the constructed state depend on
the seed, through `m_u` after the first call. -/
theorem C6_constructor_eq (seed : Nat) :
    Random.seeded seed = { m_u := seed ^^^ 4101842887655102017, m_v := 4101842887655102017, m_w := 1 } ∧
    Random.Random seed =
      (Random.int64 { (Random.int64 { (Random.seeded seed).int64.2 with
          m_v := (Random.seeded seed).int64.2.m_u }).2 with
          m_w := (Random.int64 { (Random.seeded seed).int64.2 with
            m_v := (Random.seeded seed).int64.2.m_u }).2.m_v }).2 ∧
    Random.Random seed =
      { m_u := Random.stepU (Random.stepU (Random.stepU (seed ^^^ 4101842887655102017))),
        m_v := Random.stepV (Random.stepV (Random.stepU (seed ^^^ 4101842887655102017))),
        m_w := Random.stepW (Random.stepV (Random.stepU (seed ^^^ 4101842887655102017))) } :=
  ⟨rfl, rfl, rfl⟩

/-- C8. For a probability `p` with `p < 0` or `p > 1`, `Bernoulli(p)` returns 1, whatever the
state of the generator, and leaves the generator untouched. -/
theorem C8_Bernoulli_outside_unit (p : Double) (s : Random)
    (h : Double.lt p Double.zero = true ∨ Double.lt Double.one p = true) :
    s.Bernoulli p = (1, s) := by
  unfold Random.Bernoulli
  rcases h with h | h <;> simp [h]

/-- C8 at `p = -1` and `p = 2`, on the default generator. -/
theorem C8_Bernoulli_outside_unit_witness :
    (Random.Random 5555).Bernoulli (Double.fin true 1 0) = (1, Random.Random 5555) ∧
    (Random.Random 5555).Bernoulli (Double.fin false 2 0) = (1, Random.Random 5555) :=
  ⟨C8_Bernoulli_outside_unit (Double.fin true 1 0) (Random.Random 5555) (Or.inl (by decide)),
   C8_Bernoulli_outside_unit (Double.fin false 2 0) (Random.Random 5555) (Or.inr (by decide))⟩

/-! Theorems: rounding to `double` -/

theorem ilog2Aux_spec : ∀ fuel n : Nat, n ≤ fuel → n ≠ 0 →
    2 ^ ilog2Aux fuel n ≤ n ∧ n < 2 ^ (ilog2Aux fuel n + 1) := by
  intro fuel
  induction fuel with
  | zero => intro n h h0; omega
  | succ fuel ih =>
    intro n h h0
    unfold ilog2Aux
    by_cases h2 : n < 2
    · rw [if_pos h2]; omega
    · rw [if_neg h2]
      have hd := ih (n / 2) (by omega) (by omega)
      obtain ⟨h1, h3⟩ := hd
      rw [pow_succ] at h3
      constructor
      · rw [pow_succ]; omega
      · rw [pow_succ, pow_succ]; omega

theorem ilog2_spec (n : Nat) (h : n ≠ 0) : 2 ^ ilog2 n ≤ n ∧ n < 2 ^ (ilog2 n + 1) :=
  ilog2Aux_spec n n (Nat.le_refl n) h

theorem round53_small (n : Nat) (e : Int) (h : n < 2 ^ 53) : round53 n e = (n, e) := by
  unfold round53; rw [if_pos h]

theorem round53_spec (n : Nat) (e : Int) (h : 2 ^ 53 ≤ n) :
    ∃ k q r : Nat, n = q * 2 ^ k + r ∧ r < 2 ^ k ∧ 2 ^ 52 ≤ q ∧ q < 2 ^ 53 ∧ k + 52 = ilog2 n ∧
      ((round53 n e = (q, e + k) ∧ 2 * r ≤ 2 ^ k ∧ (2 * r = 2 ^ k → q % 2 = 0)) ∨
       (q + 1 < 2 ^ 53 ∧ round53 n e = (q + 1, e + k) ∧ 2 ^ k ≤ 2 * r) ∨
       (q + 1 = 2 ^ 53 ∧ round53 n e = (2 ^ 52, e + k + 1) ∧ 2 ^ k ≤ 2 * r)) := by
  have hn0 : n ≠ 0 := by
    have : 0 < 2 ^ 53 := by norm_num
    omega
  obtain ⟨hlo, hhi⟩ := ilog2_spec n hn0
  have hL : 53 ≤ ilog2 n := by
    by_contra hc
    have : ilog2 n + 1 ≤ 53 := by omega
    have := Nat.pow_le_pow_right (show 0 < 2 by norm_num) this
    omega
  obtain ⟨k, hk⟩ : ∃ k, ilog2 n = k + 52 := ⟨ilog2 n - 52, by omega⟩
  have hkpos : 0 < 2 ^ k := Nat.pow_pos (by norm_num)
  rw [hk] at hlo hhi
  have hq1 : 2 ^ 52 ≤ n / 2 ^ k := by
    rw [Nat.le_div_iff_mul_le hkpos, ← pow_add]
    rw [Nat.add_comm]; exact hlo
  have hq2 : n / 2 ^ k < 2 ^ 53 := by
    rw [Nat.div_lt_iff_lt_mul hkpos, ← pow_add]
    have : 53 + k = k + 52 + 1 := by omega
    rw [this]; exact hhi
  have hdm : n = n / 2 ^ k * 2 ^ k + n % 2 ^ k := by
    rw [Nat.mul_comm]; exact (Nat.div_add_mod n (2 ^ k)).symm
  refine ⟨k, n / 2 ^ k, n % 2 ^ k, hdm, Nat.mod_lt _ hkpos, hq1, hq2, hk.symm, ?_⟩
  have hnlt : ¬ n < 2 ^ 53 := by omega
  have hkk : ilog2 n - 52 = k := by omega
  unfold round53
  rw [if_neg hnlt]
  simp only [hkk]
  by_cases hup : 2 ^ k < 2 * (n % 2 ^ k) ∨ (2 * (n % 2 ^ k) = 2 ^ k ∧ n / 2 ^ k % 2 = 1)
  · rw [if_pos hup]
    have hr : 2 ^ k ≤ 2 * (n % 2 ^ k) := by
      rcases hup with h1 | h1
      · omega
      · omega
    by_cases hc : n / 2 ^ k + 1 = 2 ^ 53
    · rw [if_pos hc]
      right; right
      exact ⟨hc, rfl, hr⟩
    · rw [if_neg hc]
      right; left
      refine ⟨by omega, ?_, hr⟩
      rfl
  · rw [if_neg hup]
    have hc : ¬ n / 2 ^ k = 2 ^ 53 := by omega
    rw [if_neg hc]
    left
    refine ⟨rfl, ?_, ?_⟩
    · by_contra hcon
      exact hup (Or.inl (by omega))
    · intro htie
      by_contra hodd
      exact hup (Or.inr ⟨htie, by omega⟩)

theorem two_zpow_pos (e : Int) : (0 : ℚ) < (2 : ℚ) ^ e := zpow_pos (by norm_num) e

theorem two_zpow_add (a b : Int) : (2 : ℚ) ^ (a + b) = (2 : ℚ) ^ a * (2 : ℚ) ^ b :=
  zpow_add₀ (by norm_num) a b

theorem two_zpow_add_nat (a : Int) (d : Nat) :
    (2 : ℚ) ^ (a + (d : Int)) = ((2 ^ d : Nat) : ℚ) * (2 : ℚ) ^ a := by
  rw [two_zpow_add, zpow_natCast, mul_comm]; norm_cast

/-- No 53-bit significand times a power of two lies strictly between two neighbouring multiples
`q * 2^g` and `(q + 1) * 2^g` with `2^52 ≤ q`. -/
theorem no_double_between (B q : Nat) (f g : Int) (hB : B < 2 ^ 53) (hq : 2 ^ 52 ≤ q)
    (h1 : (q : ℚ) * (2 : ℚ) ^ g < (B : ℚ) * (2 : ℚ) ^ f)
    (h2 : (B : ℚ) * (2 : ℚ) ^ f < ((q : ℚ) + 1) * (2 : ℚ) ^ g) : False := by
  rcases le_total g f with hgf | hfg
  · obtain ⟨d, hd⟩ : ∃ d : Nat, f = g + d := ⟨(f - g).toNat, by omega⟩
    subst hd
    rw [two_zpow_add_nat, ← mul_assoc] at h1 h2
    have hg := two_zpow_pos g
    have h3 := lt_of_mul_lt_mul_right h1 hg.le
    have h4 := lt_of_mul_lt_mul_right h2 hg.le
    have h5 : q < B * 2 ^ d := by exact_mod_cast h3
    have h6 : B * 2 ^ d < q + 1 := by exact_mod_cast h4
    omega
  · obtain ⟨d, hd⟩ : ∃ d : Nat, g = f + d := ⟨(g - f).toNat, by omega⟩
    subst hd
    rw [two_zpow_add_nat, ← mul_assoc] at h1 h2
    have hf := two_zpow_pos f
    have h3 := lt_of_mul_lt_mul_right h1 hf.le
    have h4 := lt_of_mul_lt_mul_right h2 hf.le
    have h5 : q * 2 ^ d < B := by exact_mod_cast h3
    have h6 : B < (q + 1) * 2 ^ d := by exact_mod_cast h4
    rcases d with _ | d
    · simp at h5 h6; omega
    · have : 2 * 1 ≤ 2 * 2 ^ d := Nat.mul_le_mul_left 2 (Nat.pow_pos (by norm_num))
      have h7 : q * 2 ≤ q * 2 ^ (d + 1) := by
        rw [pow_succ]; apply Nat.mul_le_mul_left; omega
      omega

theorem round53_fst_lt (n : Nat) (e : Int) : (round53 n e).1 < 2 ^ 53 := by
  by_cases h : n < 2 ^ 53
  · rw [round53_small n e h]; exact h
  · obtain ⟨k, q, r, -, -, -, hq, -, hc⟩ := round53_spec n e (by omega)
    rcases hc with ⟨h1, -, -⟩ | ⟨h0, h1, -⟩ | ⟨-, h1, -⟩ <;> rw [h1]
    · exact hq
    · exact h0
    · norm_num

/-- The value of `round53 n e` is one of the two neighbours of `n * 2^e` on the grid of step
`2^(e+k)`. -/
theorem round53_val (n : Nat) (e : Int) (h : 2 ^ 53 ≤ n) :
    ∃ k q r : Nat, n = q * 2 ^ k + r ∧ r < 2 ^ k ∧ 2 ^ 52 ≤ q ∧ q < 2 ^ 53 ∧ k + 52 = ilog2 n ∧
      ((val (round53 n e) = (q : ℚ) * (2 : ℚ) ^ (e + k) ∧ 2 * r ≤ 2 ^ k) ∨
       (val (round53 n e) = ((q : ℚ) + 1) * (2 : ℚ) ^ (e + k) ∧ 2 ^ k ≤ 2 * r)) := by
  obtain ⟨k, q, r, h1, h2, h3, h4, h5, hc⟩ := round53_spec n e h
  refine ⟨k, q, r, h1, h2, h3, h4, h5, ?_⟩
  rcases hc with ⟨h6, h7, -⟩ | ⟨-, h6, h7⟩ | ⟨h0, h6, h7⟩
  · left; rw [h6]; exact ⟨rfl, h7⟩
  · right; rw [h6]; refine ⟨?_, h7⟩; simp [val]
  · right; rw [h6]; refine ⟨?_, h7⟩
    have hq : (q : ℚ) + 1 = 2 ^ 53 := by exact_mod_cast h0
    rw [hq]
    simp only [val]
    rw [two_zpow_add (e + k) 1]
    norm_num; ring

theorem val_eq_of_split (n q k r : Nat) (e : Int) (h : n = q * 2 ^ k + r) :
    (n : ℚ) * (2 : ℚ) ^ e = (q : ℚ) * (2 : ℚ) ^ (e + k) + (r : ℚ) * (2 : ℚ) ^ e := by
  rw [two_zpow_add_nat, h]; push_cast; ring

/-- Rounding does not cross a double: an upper bound that is a double stays an upper bound. -/
theorem round53_le (n B : Nat) (e f : Int) (hB : B < 2 ^ 53)
    (h : (n : ℚ) * (2 : ℚ) ^ e ≤ (B : ℚ) * (2 : ℚ) ^ f) :
    val (round53 n e) ≤ (B : ℚ) * (2 : ℚ) ^ f := by
  by_cases hn : n < 2 ^ 53
  · rw [round53_small n e hn]; exact h
  · obtain ⟨k, q, r, h1, h2, h3, h4, -, hc⟩ := round53_val n e (by omega)
    have hsplit := val_eq_of_split n q k r e h1
    have he := two_zpow_pos e
    have hr0 : (0 : ℚ) ≤ (r : ℚ) * (2 : ℚ) ^ e := mul_nonneg (by positivity) he.le
    rcases hc with ⟨hv, -⟩ | ⟨hv, hr⟩
    · rw [hv]; linarith
    · rw [hv]
      by_contra hcon
      push_neg at hcon
      have hkpos : 0 < 2 ^ k := Nat.pow_pos (by norm_num)
      have hrpos : (0 : ℚ) < (r : ℚ) := by
        have : 0 < r := by omega
        exact_mod_cast this
      have : (0 : ℚ) < (r : ℚ) * (2 : ℚ) ^ e := mul_pos hrpos he
      exact no_double_between B q f (e + k) hB h3 (by linarith) hcon

/-- Rounding does not cross a double: a lower bound that is a double stays a lower bound. -/
theorem le_round53 (n B : Nat) (e f : Int) (hB : B < 2 ^ 53)
    (h : (B : ℚ) * (2 : ℚ) ^ f ≤ (n : ℚ) * (2 : ℚ) ^ e) :
    (B : ℚ) * (2 : ℚ) ^ f ≤ val (round53 n e) := by
  by_cases hn : n < 2 ^ 53
  · rw [round53_small n e hn]; exact h
  · obtain ⟨k, q, r, h1, h2, h3, h4, -, hc⟩ := round53_val n e (by omega)
    have hsplit := val_eq_of_split n q k r e h1
    have he := two_zpow_pos e
    have hrlt : (r : ℚ) * (2 : ℚ) ^ e < (2 : ℚ) ^ (e + k) := by
      rw [two_zpow_add_nat]
      have : (r : ℚ) < ((2 ^ k : Nat) : ℚ) := by exact_mod_cast h2
      exact mul_lt_mul_of_pos_right this he
    rcases hc with ⟨hv, -⟩ | ⟨hv, hr⟩
    · rw [hv]
      by_contra hcon
      push_neg at hcon
      exact no_double_between B q f (e + k) hB h3 hcon (by linarith)
    · rw [hv]; linarith

/-- A value that is a double is left unchanged by rounding. -/
theorem round53_exact (n B : Nat) (e f : Int) (hB : B < 2 ^ 53)
    (h : (n : ℚ) * (2 : ℚ) ^ e = (B : ℚ) * (2 : ℚ) ^ f) :
    val (round53 n e) = (B : ℚ) * (2 : ℚ) ^ f :=
  le_antisymm (round53_le n B e f hB h.le) (le_round53 n B e f hB h.ge)

namespace Double

theorem toRat_rounded_false (n : Nat) (e : Int) : toRat (rounded false n e) = val (round53 n e) := by
  simp [rounded, toRat, val]

theorem scaled_cast (s : Bool) (m : Nat) (e e0 : Int) (h : e0 ≤ e) :
    ((scaled s m e e0 : Int) : ℚ) * (2 : ℚ) ^ e0 = toRat (fin s m e) := by
  obtain ⟨d, hd⟩ : ∃ d : Nat, e = e0 + d := ⟨(e - e0).toNat, by omega⟩
  subst hd
  have hd2 : (e0 + (d : Int) - e0).toNat = d := by omega
  simp only [scaled, toRat, hd2]
  rw [two_zpow_add_nat]
  cases s <;> simp <;> ring

theorem lt_fin_iff (s1 : Bool) (m1 : Nat) (e1 : Int) (s2 : Bool) (m2 : Nat) (e2 : Int) :
    lt (fin s1 m1 e1) (fin s2 m2 e2) = true ↔ toRat (fin s1 m1 e1) < toRat (fin s2 m2 e2) := by
  have h1 := scaled_cast s1 m1 e1 (min e1 e2) (min_le_left _ _)
  have h2 := scaled_cast s2 m2 e2 (min e1 e2) (min_le_right _ _)
  have hp := two_zpow_pos (min e1 e2)
  rw [← h1, ← h2]
  simp only [lt, decide_eq_true_eq]
  rw [mul_lt_mul_right hp]
  exact Int.cast_lt.symm

theorem le_fin_iff (s1 : Bool) (m1 : Nat) (e1 : Int) (s2 : Bool) (m2 : Nat) (e2 : Int) :
    le (fin s1 m1 e1) (fin s2 m2 e2) = true ↔ toRat (fin s1 m1 e1) ≤ toRat (fin s2 m2 e2) := by
  have h1 := scaled_cast s1 m1 e1 (min e1 e2) (min_le_left _ _)
  have h2 := scaled_cast s2 m2 e2 (min e1 e2) (min_le_right _ _)
  have hp := two_zpow_pos (min e1 e2)
  rw [← h1, ← h2]
  simp only [le, decide_eq_true_eq]
  rw [mul_le_mul_right hp]
  exact Int.cast_le.symm

end Double

/-- The deviate returned by `rand` is the draw, converted to `double`, times `2^-64` exactly. -/
theorem rand_eq (s : Random) :
    ∃ m : Nat, ∃ e : Int, s.rand = (Double.fin false m e, s.int64.2) ∧ m < 2 ^ 53 ∧
      (m : ℚ) * (2 : ℚ) ^ e = val (round53 s.int64.1 0) * (2 : ℚ) ^ (-64 : Int) := by
  have hm := round53_fst_lt s.int64.1 0
  have hex := round53_exact (2 ^ 52 * (round53 s.int64.1 0).1) (round53 s.int64.1 0).1
    (-116 + (round53 s.int64.1 0).2) ((round53 s.int64.1 0).2 + (-64)) hm (by
      rw [two_zpow_add, two_zpow_add]; push_cast
      have : (2 : ℚ) ^ (-116 : Int) = (2 : ℚ) ^ (-64 : Int) / 2 ^ 52 := by
        rw [zpow_neg, zpow_neg]; norm_num
      rw [this]; field_simp; ring)
  refine ⟨(round53 (2 ^ 52 * (round53 s.int64.1 0).1) (-116 + (round53 s.int64.1 0).2)).1,
    (round53 (2 ^ 52 * (round53 s.int64.1 0).1) (-116 + (round53 s.int64.1 0).2)).2, rfl,
    round53_fst_lt _ _, ?_⟩
  have := hex
  simp only [val] at this ⊢
  rw [this, two_zpow_add]; ring


/-- Conversion of a 64-bit word to `double`: the result is at most `2^64`, and it is `2^64`
exactly for the words from `2^64 - 1024` on. -/
theorem round53_word (x : Nat) (hx : x < 2 ^ 64) :
    ∃ m e : Nat, round53 x 0 = (m, (e : Int)) ∧ m * 2 ^ e ≤ 2 ^ 64 ∧
      (m * 2 ^ e < 2 ^ 64 ↔ x < 2 ^ 64 - 1024) := by
  by_cases h : x < 2 ^ 53
  · refine ⟨x, 0, round53_small x 0 h, by omega, ?_⟩
    constructor
    · intro _; omega
    · intro _; omega
  · obtain ⟨k, q, r, h1, h2, h3, h4, h5, hc⟩ := round53_spec x 0 (by omega)
    have hx0 : x ≠ 0 := by omega
    have hk : k ≤ 11 := by
      have hlo := (ilog2_spec x hx0).1
      by_contra hcon
      have : 64 ≤ ilog2 x := by omega
      have := Nat.pow_le_pow_right (show 0 < 2 by norm_num) this
      omega
    rcases hc with ⟨h6, h7, h8⟩ | ⟨h0, h6, h7⟩ | ⟨h0, h6, h7⟩
    · refine ⟨q, k, by rw [h6]; simp, ?_, ?_⟩
      · omega
      · interval_cases k <;> omega
    · refine ⟨q + 1, k, by rw [h6]; simp, ?_, ?_⟩
      · interval_cases k <;> omega
      · interval_cases k <;> omega
    · refine ⟨2 ^ 52, k + 1, by rw [h6]; simp, ?_, ?_⟩
      · interval_cases k <;> omega
      · interval_cases k <;> omega


theorem val_nat (m e : Nat) : val (m, (e : Int)) = ((m * 2 ^ e : Nat) : ℚ) := by
  simp [val]

/-- C4, amended. In every generator state `rand()` returns a value `r` with `0 ≤ r ≤ 1`, and
`r < 1` holds exactly when the 64-bit draw is below `2^64 - 1024`: the draws from `2^64 - 1024`
on are rounded to `2^64` by the conversion to `double`, and give `r = 1`. -/
theorem C4_rand_range (s : Random) :
    Double.le Double.zero s.rand.1 = true ∧ Double.le s.rand.1 Double.one = true ∧
      (Double.lt s.rand.1 Double.one = true ↔ s.int64.1 < 2 ^ 64 - 1024) := by
  obtain ⟨m, e, hr, -, hv⟩ := rand_eq s
  obtain ⟨a, b, hab, hle, hiff⟩ := round53_word s.int64.1 (int64_fst_lt s)
  rw [hab, val_nat] at hv
  have h64 : (2 : ℚ) ^ (-64 : Int) = 1 / 2 ^ 64 := by rw [zpow_neg]; norm_num
  rw [hr]
  refine ⟨?_, ?_, ?_⟩
  · rw [Double.zero, Double.le_fin_iff]
    simp only [Double.toRat]
    have := two_zpow_pos e
    simp
    positivity
  · rw [Double.one, Double.le_fin_iff]
    simp only [Double.toRat]
    have h1 : ((a * 2 ^ b : Nat) : ℚ) ≤ ((2 ^ 64 : Nat) : ℚ) := by exact_mod_cast hle
    simp only [Bool.false_eq_true, if_false, one_mul]
    rw [hv, h64]
    push_cast at h1 ⊢
    rw [zpow_zero, mul_one_div, div_le_iff₀ (by positivity)]
    linarith
  · rw [Double.one, Double.lt_fin_iff, ← hiff]
    simp only [Double.toRat, Bool.false_eq_true, if_false, one_mul]
    rw [hv, h64, zpow_zero, mul_one_div, div_lt_iff₀ (by positivity)]
    constructor
    · intro h; have : ((a * 2 ^ b : Nat) : ℚ) < ((2 ^ 64 : Nat) : ℚ) := by push_cast at h ⊢; linarith
      exact_mod_cast this
    · intro h; have : ((a * 2 ^ b : Nat) : ℚ) < ((2 ^ 64 : Nat) : ℚ) := by exact_mod_cast h
      push_cast at this ⊢; linarith

/-- The double `2^-64` is the one nearest to the decimal literal `5.42101086242752217E-20`: the
two differ by less than half the distance from `2^-64` to the double just below it. -/
theorem scale_nearest_literal :
    |(542101086242752217 : ℚ) / 10 ^ 37 - Double.toRat Random.scale| < (2 : ℚ) ^ (-118 : Int) := by
  simp only [Random.scale, Double.toRat]
  rw [abs_lt]
  constructor <;> norm_num [zpow_neg]

set_option maxRecDepth 10000 in
/-- C4, as the claim states it, fails in the state `nearOne`, three 64-bit words: `int64()`
returns `2^64 - 1`, its conversion to `double` rounds to `2^64`, and `rand()` returns
`2^64 * 2^-64 = 1.0`, which is not below 1. -/
theorem C4_rand_returns_one :
    nearOne.WellFormed ∧ nearOne.int64.1 = 2 ^ 64 - 1 ∧
    Double.ofUInt64 (2 ^ 64 - 1) = Double.fin false (2 ^ 52) 12 ∧
    nearOne.rand.1 = Double.fin false (2 ^ 52) (-52) ∧
    Double.lt nearOne.rand.1 Double.one = false ∧
    Double.le Double.one nearOne.rand.1 = true := by
  decide

set_option maxRecDepth 10000 in
/-- A consequence of `rand()` returning 1: with `p = 1.0`, documented as the probability of
returning 1, `Bernoulli` returns 0 in the state `nearOne`. -/
theorem Bernoulli_one_nearOne : (nearOne.Bernoulli Double.one).1 = 0 := by
  decide

theorem rand_le_one (s : Random) :
    ∃ m : Nat, ∃ e : Int, s.rand = (Double.fin false m e, s.int64.2) ∧ m < 2 ^ 53 ∧
      (m : ℚ) * (2 : ℚ) ^ e ≤ 1 := by
  obtain ⟨m, e, hr, hm, hv⟩ := rand_eq s
  refine ⟨m, e, hr, hm, ?_⟩
  have hx : (s.int64.1 : ℚ) ≤ 2 ^ 64 := by
    have := int64_fst_lt s
    exact_mod_cast this.le
  have h := round53_le s.int64.1 1 0 64 (by norm_num) (by
    rw [zpow_zero, mul_one, Nat.cast_one, one_mul]; exact_mod_cast hx)
  rw [hv]
  have h64 : (2 : ℚ) ^ (-64 : Int) = 1 / 2 ^ 64 := by rw [zpow_neg]; norm_num
  rw [h64, mul_one_div, div_le_iff₀ (by positivity)]
  norm_num at h ⊢
  exact h

namespace Double

theorem add_fin_nonneg (m1 : Nat) (e1 : Int) (m2 : Nat) (e2 : Int) :
    ∃ n : Nat, ∃ e : Int, add (fin false m1 e1) (fin false m2 e2) = rounded false n e ∧
      (n : ℚ) * (2 : ℚ) ^ e = (m1 : ℚ) * (2 : ℚ) ^ e1 + (m2 : ℚ) * (2 : ℚ) ^ e2 := by
  have h1 := scaled_cast false m1 e1 (min e1 e2) (min_le_left _ _)
  have h2 := scaled_cast false m2 e2 (min e1 e2) (min_le_right _ _)
  have hn1 : 0 ≤ scaled false m1 e1 (min e1 e2) := by simp [scaled]
  have hn2 : 0 ≤ scaled false m2 e2 (min e1 e2) := by simp [scaled]
  refine ⟨(scaled false m1 e1 (min e1 e2) + scaled false m2 e2 (min e1 e2)).natAbs, min e1 e2, ?_, ?_⟩
  · have hc : ¬ (scaled false m1 e1 (min e1 e2) + scaled false m2 e2 (min e1 e2) < 0) := by omega
    simp only [add, hc, decide_False]
  · have hcast : (((scaled false m1 e1 (min e1 e2) + scaled false m2 e2 (min e1 e2)).natAbs : Nat) : ℚ)
        = ((scaled false m1 e1 (min e1 e2) : Int) : ℚ) + ((scaled false m2 e2 (min e1 e2) : Int) : ℚ) := by
      rw [← Int.cast_add, ← Int.cast_natCast, Int.natAbs_of_nonneg (by omega)]
    rw [hcast, add_mul, h1, h2]
    simp [toRat]

/-- The cast to `int` of a non-negative double lying between two natural numbers. -/
theorem toInt_of_bounds (a : Nat) (b : Int) (lo hi : Nat)
    (hlo : (lo : ℚ) ≤ (a : ℚ) * (2 : ℚ) ^ b) (hhi : (a : ℚ) * (2 : ℚ) ^ b ≤ (hi : ℚ))
    (hrange : (hi : Int) ≤ INT_MAX) :
    ∃ t : Int, toInt (fin false a b) = some t ∧ (lo : Int) ≤ t ∧ t ≤ (hi : Int) := by
  rcases le_or_lt 0 b with hb | hb
  · obtain ⟨d, hd⟩ : ∃ d : Nat, b = d := ⟨b.toNat, by omega⟩
    subst hd
    rw [zpow_natCast] at hlo hhi
    have h1 : lo ≤ a * 2 ^ d := by exact_mod_cast hlo
    have h2 : a * 2 ^ d ≤ hi := by exact_mod_cast hhi
    refine ⟨((a * 2 ^ d : Nat) : Int), ?_, by exact_mod_cast h1, by exact_mod_cast h2⟩
    have h3 : ((a * 2 ^ d : Nat) : Int) ≤ INT_MAX := le_trans (by exact_mod_cast h2) hrange
    have h4 : INT_MIN ≤ ((a * 2 ^ d : Nat) : Int) := by
      have : (0 : Int) ≤ ((a * 2 ^ d : Nat) : Int) := Int.natCast_nonneg _
      simp only [INT_MIN]; omega
    simp only [toInt, hb, if_true, Int.toNat_ofNat, Bool.false_eq_true, if_false, h3, h4, and_self]
  · obtain ⟨d, hd⟩ : ∃ d : Nat, b = -(d : Int) := ⟨(-b).toNat, by omega⟩
    subst hd
    have hpos : (0 : ℚ) < (2 : ℚ) ^ d := by positivity
    have hpn : 0 < 2 ^ d := Nat.pow_pos (by norm_num)
    rw [zpow_neg, zpow_natCast, ← div_eq_mul_inv] at hlo hhi
    rw [le_div_iff₀ hpos] at hlo
    rw [div_le_iff₀ hpos] at hhi
    have h1 : lo * 2 ^ d ≤ a := by exact_mod_cast hlo
    have h2 : a ≤ hi * 2 ^ d := by exact_mod_cast hhi
    have h5 : lo ≤ a / 2 ^ d := (Nat.le_div_iff_mul_le hpn).2 h1
    have h6 : a / 2 ^ d ≤ hi := by
      apply Nat.div_le_of_le_mul
      rw [Nat.mul_comm]; exact h2
    refine ⟨((a / 2 ^ d : Nat) : Int), ?_, by exact_mod_cast h5, by exact_mod_cast h6⟩
    have h3 : ((a / 2 ^ d : Nat) : Int) ≤ INT_MAX := le_trans (by exact_mod_cast h6) hrange
    have h4 : INT_MIN ≤ ((a / 2 ^ d : Nat) : Int) := by
      have : (0 : Int) ≤ ((a / 2 ^ d : Nat) : Int) := Int.natCast_nonneg _
      simp only [INT_MIN]; omega
    have hnb : ¬ (0 : Int) ≤ -(d : Int) := by omega
    simp only [toInt, hnb, if_false, neg_neg, Int.toNat_ofNat, Bool.false_eq_true, h3, h4, and_self,
      if_true]

end Double

theorem Categorical_of_nat (N : Nat) (s : Random) (h3 : 3 ≤ N) (hN : (N : Int) < INT_MAX) :
    ∃ r : Int, (Double.toInt (Double.add Double.one (Double.mul (Double.ofInt N) s.rand.1)))
      = some r ∧ 1 ≤ r ∧ r ≤ (N : Int) + 1 := by
  obtain ⟨m, e, hr, hm, hle⟩ := rand_le_one s
  have hN31 : N < 2147483647 := by
    simp only [INT_MAX] at hN
    exact_mod_cast hN
  have hN53 : N < 2 ^ 53 := by omega
  have hof : Double.ofInt (N : Int) = Double.fin false N 0 := by
    have hneg : ¬ ((N : Int) < 0) := by omega
    simp [Double.ofInt, Double.rounded, hneg, round53_small N 0 hN53]
  rw [hr, hof]
  have he := two_zpow_pos e
  -- the product
  have hprod : Double.mul (Double.fin false N 0) (Double.fin false m e)
      = Double.fin false (round53 (N * m) (0 + e)).1 (round53 (N * m) (0 + e)).2 := by
    simp [Double.mul, Double.rounded]
  have hp1 := round53_fst_lt (N * m) (0 + e)
  have hp2 : val (round53 (N * m) (0 + e)) ≤ (N : ℚ) * (2 : ℚ) ^ (0 : Int) :=
    round53_le (N * m) N (0 + e) 0 hN53 (by
      rw [zero_add, zpow_zero, mul_one]; push_cast
      have : (N : ℚ) * ((m : ℚ) * (2 : ℚ) ^ e) ≤ (N : ℚ) * 1 :=
        mul_le_mul_of_nonneg_left hle (by positivity)
      linarith)
  have hp0 : 0 ≤ val (round53 (N * m) (0 + e)) := by
    simp only [val]
    exact mul_nonneg (by positivity) (two_zpow_pos _).le
  simp only [hprod, Double.one]
  -- the sum
  obtain ⟨c, f, hadd, hval⟩ := Double.add_fin_nonneg 1 0 (round53 (N * m) (0 + e)).1
    (round53 (N * m) (0 + e)).2
  rw [hadd]
  simp only [val] at hp2 hp0
  rw [zpow_zero, mul_one] at hp2
  rw [zpow_zero, mul_one, Nat.cast_one] at hval
  have hs1 : val (round53 c f) ≤ ((N + 1 : Nat) : ℚ) * (2 : ℚ) ^ (0 : Int) :=
    round53_le c (N + 1) f 0 (by omega) (by
      rw [hval, zpow_zero, mul_one]; push_cast; linarith)
  have hs2 : ((1 : Nat) : ℚ) * (2 : ℚ) ^ (0 : Int) ≤ val (round53 c f) :=
    le_round53 c 1 f 0 (by norm_num) (by
      rw [hval, zpow_zero, mul_one]; push_cast; linarith)
  rw [zpow_zero, mul_one] at hs1 hs2
  simp only [val] at hs1 hs2
  have hrange : ((N + 1 : Nat) : Int) ≤ INT_MAX := by
    simp only [INT_MAX]; push_cast; omega
  obtain ⟨t, ht, ht1, ht2⟩ := Double.toInt_of_bounds (round53 c f).1 (round53 c f).2 1 (N + 1)
    hs2 hs1 hrange
  refine ⟨t, ?_, by exact_mod_cast ht1, by exact_mod_cast ht2⟩
  simpa [Double.rounded] using ht

/-- The range of `Categorical`: for `n` below `INT_MAX` the cast is defined and the result lies
between 1 and `m + 1`, where `m` is `n`, or 3 when `n < 3`. -/
theorem Categorical_range (n : Int) (s : Random) (hn : n < INT_MAX) :
    ∃ r : Int, s.Categorical n = (some r, s.int64.2) ∧
      1 ≤ r ∧ r ≤ (if n < 3 then 3 else n) + 1 := by
  obtain ⟨N, hN⟩ : ∃ N : Nat, (if n < 3 then 3 else n) = (N : Int) :=
    ⟨(if n < 3 then 3 else n).toNat, by split_ifs <;> omega⟩
  have h3 : 3 ≤ N := by
    have : (3 : Int) ≤ (N : Int) := by rw [← hN]; split_ifs <;> omega
    exact_mod_cast this
  have hlt : (N : Int) < INT_MAX := by
    rw [← hN]; simp only [INT_MAX] at hn ⊢; split_ifs <;> omega
  obtain ⟨r, hr, h1, h2⟩ := Categorical_of_nat N s h3 hlt
  obtain ⟨m, e, hrand, -, -⟩ := rand_le_one s
  refine ⟨r, ?_, h1, by rw [hN]; exact h2⟩
  have hsnd : s.rand.2 = s.int64.2 := by rw [hrand]
  simp only [Random.Categorical, hN]
  rw [← hsnd]
  exact Prod.ext hr rfl

set_option maxRecDepth 10000 in
/-- C5. The claim fails on the code: in the state `nearOne`, where `rand()` returns 1.0,
`Categorical(6)` returns 7 and `Categorical(2)`, which stands for `Categorical(3)`, returns 4;
in the state `belowOne`, where `rand()` returns `1 - 2^-53`, the sum `1.0 + 4*rand()` is a tie
that rounds to 5.0 and `Categorical(4)` returns 5. -/
theorem C5_Categorical_exceeds_range :
    nearOne.WellFormed ∧ belowOne.WellFormed ∧
    (nearOne.Categorical 6).1 = some 7 ∧ (nearOne.Categorical 2).1 = some 4 ∧
    belowOne.int64.1 = 2 ^ 64 - 2048 ∧ Double.lt belowOne.rand.1 Double.one = true ∧
    (belowOne.Categorical 4).1 = some 5 := by
  decide

/-! Theorems: division, and the estimate in `double` -/

theorem round53_zero (e : Int) : round53 0 e = (0, e) := round53_small 0 e (by norm_num)

/-- The quotient of the significands taken by `Double.div` has at least 55 bits. -/
theorem div_quotient_large (m1 m2 : Nat) (h1 : m1 ≠ 0) (h2 : m2 ≠ 0) :
    2 ^ 54 ≤ m1 * 2 ^ (55 + ilog2 m2 - ilog2 m1) / m2 := by
  obtain ⟨ha, -⟩ := ilog2_spec m1 h1
  obtain ⟨-, hb⟩ := ilog2_spec m2 h2
  have hm2 : 0 < m2 := Nat.pos_of_ne_zero h2
  rw [Nat.le_div_iff_mul_le hm2]
  have hexp : 55 + ilog2 m2 ≤ ilog2 m1 + (55 + ilog2 m2 - ilog2 m1) := by omega
  calc 2 ^ 54 * m2 ≤ 2 ^ 54 * 2 ^ (ilog2 m2 + 1) := Nat.mul_le_mul_left _ hb.le
    _ = 2 ^ (55 + ilog2 m2) := by rw [← pow_add]; congr 1; omega
    _ ≤ 2 ^ (ilog2 m1 + (55 + ilog2 m2 - ilog2 m1)) :=
        Nat.pow_le_pow_right (by norm_num) hexp
    _ = 2 ^ ilog2 m1 * 2 ^ (55 + ilog2 m2 - ilog2 m1) := pow_add _ _ _
    _ ≤ m1 * 2 ^ (55 + ilog2 m2 - ilog2 m1) := Nat.mul_le_mul_right _ ha

theorem Double.div_fin (m1 : Nat) (e1 : Int) (m2 : Nat) (e2 : Int) (h2 : m2 ≠ 0) :
    Double.div (Double.fin false m1 e1) (Double.fin false m2 e2)
      = Double.rounded false
          (2 * (m1 * 2 ^ (55 + ilog2 m2 - ilog2 m1) / m2)
            + (if m1 * 2 ^ (55 + ilog2 m2 - ilog2 m1) % m2 = 0 then 0 else 1))
          (e1 - e2 - ((55 + ilog2 m2 - ilog2 m1 : Nat) : Int) - 1) := by
  simp [Double.div, h2]

/-- The exact quotient of two non-negative doubles, and the number that `Double.div` rounds. -/
theorem div_exact (m1 m2 s : Nat) (e1 e2 : Int) (h2 : m2 ≠ 0) :
    (m1 : ℚ) * (2 : ℚ) ^ e1 / ((m2 : ℚ) * (2 : ℚ) ^ e2)
      = (((m1 * 2 ^ s / m2 : Nat) : ℚ) * 2 + ((m1 * 2 ^ s % m2 : Nat) : ℚ) * 2 / (m2 : ℚ))
          * (2 : ℚ) ^ (e1 - e2 - (s : Int) - 1) := by
  have hm2 : (m2 : ℚ) ≠ 0 := by exact_mod_cast h2
  have hdm : ((m1 * 2 ^ s : Nat) : ℚ)
      = (m2 : ℚ) * ((m1 * 2 ^ s / m2 : Nat) : ℚ) + ((m1 * 2 ^ s % m2 : Nat) : ℚ) := by
    exact_mod_cast (Nat.div_add_mod (m1 * 2 ^ s) m2).symm
  have he1 : (2 : ℚ) ^ e1 = (2 : ℚ) ^ (e1 - e2 - (s : Int) - 1) * ((2 : ℚ) ^ e2 * (2 ^ s * 2)) := by
    have : e1 = (e1 - e2 - (s : Int) - 1) + (e2 + ((s : Int) + 1)) := by ring
    conv_lhs => rw [this]
    rw [two_zpow_add, two_zpow_add]
    congr 2
    rw [show ((s : Int) + 1) = ((s + 1 : Nat) : Int) by push_cast; ring, zpow_natCast, pow_succ]
  have h2e := (two_zpow_pos e2).ne'
  have hE := (two_zpow_pos (e1 - e2 - (s : Int) - 1)).ne'
  rw [he1]
  push_cast at hdm
  field_simp
  linear_combination (2 : ℚ) ^ (e1 - e2 - (s : Int) - 1) * 2 * 2 ^ e2 * (m2 : ℚ) * hdm

theorem rounded_rounds (n : Nat) (e : Int) :
    Rounds (Double.rounded false n e) ((n : ℚ) * (2 : ℚ) ^ e) :=
  ⟨(round53 n e).1, (round53 n e).2, rfl, round53_fst_lt n e,
    fun B f hB h => round53_le n B e f hB h, fun B f hB h => le_round53 n B e f hB h⟩

theorem mul_rounds (m1 : Nat) (e1 : Int) (m2 : Nat) (e2 : Int) :
    Rounds (Double.mul (Double.fin false m1 e1) (Double.fin false m2 e2))
      ((m1 : ℚ) * (2 : ℚ) ^ e1 * ((m2 : ℚ) * (2 : ℚ) ^ e2)) := by
  have h := rounded_rounds (m1 * m2) (e1 + e2)
  have hx : ((m1 * m2 : Nat) : ℚ) * (2 : ℚ) ^ (e1 + e2)
      = (m1 : ℚ) * (2 : ℚ) ^ e1 * ((m2 : ℚ) * (2 : ℚ) ^ e2) := by
    rw [two_zpow_add]; push_cast; ring
  rw [hx] at h
  simpa [Double.mul] using h

theorem div_rounds (m1 : Nat) (e1 : Int) (m2 : Nat) (e2 : Int) (h2 : m2 ≠ 0) :
    Rounds (Double.div (Double.fin false m1 e1) (Double.fin false m2 e2))
      ((m1 : ℚ) * (2 : ℚ) ^ e1 / ((m2 : ℚ) * (2 : ℚ) ^ e2)) := by
  rw [Double.div_fin m1 e1 m2 e2 h2, div_exact m1 m2 (55 + ilog2 m2 - ilog2 m1) e1 e2 h2]
  generalize hs : 55 + ilog2 m2 - ilog2 m1 = s
  generalize hE : e1 - e2 - (s : Int) - 1 = E
  have hm2 : (0 : ℚ) < (m2 : ℚ) := by exact_mod_cast Nat.pos_of_ne_zero h2
  have hEpos := two_zpow_pos E
  by_cases hrem : m1 * 2 ^ s % m2 = 0
  · rw [if_pos hrem, hrem]
    have := rounded_rounds (2 * (m1 * 2 ^ s / m2) + 0) E
    have hx : ((2 * (m1 * 2 ^ s / m2) + 0 : Nat) : ℚ) * (2 : ℚ) ^ E
        = (((m1 * 2 ^ s / m2 : Nat) : ℚ) * 2 + ((0 : Nat) : ℚ) * 2 / (m2 : ℚ)) * (2 : ℚ) ^ E := by
      push_cast; ring
    rw [hx] at this
    exact this
  · rw [if_neg hrem]
    have hm1 : m1 ≠ 0 := by
      intro h0; apply hrem; rw [h0]; simp
    have hbig : 2 ^ 54 ≤ m1 * 2 ^ s / m2 := by
      rw [← hs]; exact div_quotient_large m1 m2 hm1 h2
    have hrpos : (0 : ℚ) < ((m1 * 2 ^ s % m2 : Nat) : ℚ) * 2 / (m2 : ℚ) := by
      have : (0 : ℚ) < ((m1 * 2 ^ s % m2 : Nat) : ℚ) := by
        exact_mod_cast Nat.pos_of_ne_zero hrem
      positivity
    have hrlt : ((m1 * 2 ^ s % m2 : Nat) : ℚ) * 2 / (m2 : ℚ) < 2 := by
      rw [div_lt_iff₀ hm2]
      have : ((m1 * 2 ^ s % m2 : Nat) : ℚ) < (m2 : ℚ) := by
        exact_mod_cast Nat.mod_lt _ (Nat.pos_of_ne_zero h2)
      linarith
    refine ⟨(round53 (2 * (m1 * 2 ^ s / m2) + 1) E).1, (round53 (2 * (m1 * 2 ^ s / m2) + 1) E).2,
      rfl, round53_fst_lt _ _, ?_, ?_⟩
    · intro B f hB h
      apply round53_le _ B E f hB
      by_contra hcon
      push_neg at hcon
      apply no_double_between B (2 * (m1 * 2 ^ s / m2)) f E hB (by omega)
      · have := mul_lt_mul_of_pos_right hrpos hEpos
        push_cast
        nlinarith
      · push_cast at hcon ⊢
        exact hcon
    · intro B f hB h
      apply le_round53 _ B E f hB
      by_contra hcon
      push_neg at hcon
      apply no_double_between B (2 * (m1 * 2 ^ s / m2) + 1) f E hB (by omega)
      · exact hcon
      · have := mul_lt_mul_of_pos_right hrlt hEpos
        push_cast
        nlinarith

theorem round53_pos (n : Nat) (e : Int) (h : 0 < n) : 0 < (round53 n e).1 := by
  by_cases hn : n < 2 ^ 53
  · rw [round53_small n e hn]; exact h
  · obtain ⟨k, q, r, -, -, hq, -, -, hc⟩ := round53_spec n e (by omega)
    rcases hc with ⟨h1, -, -⟩ | ⟨-, h1, -⟩ | ⟨-, h1, -⟩ <;> rw [h1] <;> simp only <;> omega

/-- The double `PI_nearest` is the double nearest to `π`: it differs from `π` by less than half
the distance between neighbouring doubles in `[2, 4)`. -/
theorem PI_nearest_spec :
    |Real.pi - ((Double.toRat PI_nearest : ℚ) : ℝ)| < (2 : ℝ) ^ (-52 : Int) := by
  have h1 := Real.pi_gt_d20
  have h2 := Real.pi_lt_d20
  simp only [PI_nearest, Double.toRat]
  rw [abs_lt]
  constructor
  · norm_num [zpow_neg] at h1 h2 ⊢
    linarith
  · norm_num [zpow_neg] at h1 h2 ⊢
    linarith

theorem ofInt_natCast (N : Nat) (hN : N < 2 ^ 53) : Double.ofInt (N : Int) = Double.fin false N 0 := by
  have hneg : ¬ ((N : Int) < 0) := by omega
  simp [Double.ofInt, Double.rounded, hneg, round53_small N 0 hN]

/-- The sum of two finite doubles is their exact sum, rounded: the sign is that of the exact sum
and the magnitude is the magnitude of the exact sum rounded. -/
theorem add_fin (s1 : Bool) (m1 : Nat) (e1 : Int) (s2 : Bool) (m2 : Nat) (e2 : Int) :
    ∃ (s : Bool) (n : Nat) (e0 : Int),
      Double.add (Double.fin s1 m1 e1) (Double.fin s2 m2 e2) = Double.rounded s n e0 ∧
      (n : ℚ) * (2 : ℚ) ^ e0
        = |Double.toRat (Double.fin s1 m1 e1) + Double.toRat (Double.fin s2 m2 e2)| := by
  have h1 := Double.scaled_cast s1 m1 e1 (min e1 e2) (min_le_left _ _)
  have h2 := Double.scaled_cast s2 m2 e2 (min e1 e2) (min_le_right _ _)
  refine ⟨_, _, _, rfl, ?_⟩
  rw [← h1, ← h2, ← add_mul, abs_mul, abs_of_pos (two_zpow_pos _), ← Int.cast_add,
    ← Int.cast_abs, Int.abs_eq_natAbs, Int.cast_natCast]

/-- Bounds of the estimate and of the error as the code computes them in `double`, for counters
with `0 < successes ≤ trials ≤ INT_MAX` and a positive finite `PI`. -/
theorem double_bounds (r : Record) (p : Nat) (e : Int) (hp : 0 < p) (h0 : 0 < r.successes)
    (h1 : r.successes ≤ r.trials) (h2 : r.trials ≤ INT_MAX) :
    Double.lt Double.zero (r.approxDouble (Double.fin false p e)) = true ∧
    Double.le (r.approxDouble (Double.fin false p e)) (CYL_VOL (Double.fin false p e)) = true ∧
    Double.le Double.zero (r.errorDouble (Double.fin false p e)) = true ∧
    Double.le (r.errorDouble (Double.fin false p e)) Double.one = true := by
  obtain ⟨S, hS⟩ : ∃ S : Nat, r.successes = (S : Int) := ⟨r.successes.toNat, by omega⟩
  obtain ⟨T, hT⟩ : ∃ T : Nat, r.trials = (T : Int) := ⟨r.trials.toNat, by omega⟩
  simp only [INT_MAX] at h2
  have hS0 : 0 < S := by omega
  have hST : S ≤ T := by omega
  have hT31 : T < 2 ^ 31 := by omega
  have hSq : (0 : ℚ) < (S : ℚ) := by exact_mod_cast hS0
  have hTq : (0 : ℚ) < (T : ℚ) := by exact_mod_cast (by omega : 0 < T)
  have hSTq : (S : ℚ) ≤ (T : ℚ) := by exact_mod_cast hST
  have hT31q : (T : ℚ) ≤ 2 ^ 31 := by exact_mod_cast hT31.le
  have hpq : (1 : ℚ) ≤ (p : ℚ) := by exact_mod_cast hp
  -- the volume
  obtain ⟨mV, eV, hV, hmV, -, hVlo⟩ := mul_rounds p e p e
  have hVpos : (0 : ℚ) < (mV : ℚ) * (2 : ℚ) ^ eV := by
    have hpe := two_zpow_pos e
    have := hVlo 1 (e + e) (by norm_num) (by
      rw [two_zpow_add]
      have : (1 : ℚ) * ((2 : ℚ) ^ e * (2 : ℚ) ^ e) ≤ (p : ℚ) * (p : ℚ) * ((2 : ℚ) ^ e * (2 : ℚ) ^ e) :=
        mul_le_mul_of_nonneg_right (by nlinarith) (by positivity)
      push_cast
      nlinarith)
    have h2e := two_zpow_pos (e + e)
    push_cast at this
    linarith
  -- the ratio
  obtain ⟨rm, re, hr, -, hrup, hrlo⟩ := div_rounds S 0 T 0 (by omega)
  rw [zpow_zero, mul_one, mul_one] at hrup hrlo
  have hr1 : (rm : ℚ) * (2 : ℚ) ^ re ≤ 1 := by
    have := hrup 1 0 (by norm_num) (by
      rw [zpow_zero, mul_one, Nat.cast_one, div_le_one hTq]; exact hSTq)
    simpa using this
  have h31 : (2 : ℚ) ^ (-31 : Int) = 1 / 2 ^ 31 := by rw [zpow_neg]; norm_num
  have hr0 : (2 : ℚ) ^ (-31 : Int) ≤ (rm : ℚ) * (2 : ℚ) ^ re := by
    have := hrlo 1 (-31) (by norm_num) (by
      rw [Nat.cast_one, one_mul, h31, div_le_div_iff₀ (by positivity) hTq]
      have hS1 : (1 : ℚ) ≤ (S : ℚ) := by exact_mod_cast hS0
      calc (1 : ℚ) * (T : ℚ) ≤ 1 * 2 ^ 31 := by linarith
        _ ≤ (S : ℚ) * 2 ^ 31 := mul_le_mul_of_nonneg_right hS1 (by positivity))
    simpa using this
  -- the estimate
  obtain ⟨am, ae, ha, -, haup, halo⟩ := mul_rounds rm re mV eV
  have ha1 : (am : ℚ) * (2 : ℚ) ^ ae ≤ (mV : ℚ) * (2 : ℚ) ^ eV :=
    haup mV eV hmV (by nlinarith)
  have ha0 : (mV : ℚ) * (2 : ℚ) ^ (eV + (-31)) ≤ (am : ℚ) * (2 : ℚ) ^ ae :=
    halo mV (eV + (-31)) hmV (by rw [two_zpow_add]; nlinarith)
  have hapos : (0 : ℚ) < (am : ℚ) * (2 : ℚ) ^ ae := by
    have : (0 : ℚ) < (mV : ℚ) * (2 : ℚ) ^ (eV + (-31)) := by
      rw [two_zpow_add, ← mul_assoc]
      exact mul_pos hVpos (two_zpow_pos _)
    linarith
  -- the analytical value
  have hof2 : Double.ofInt 2 = Double.fin false 2 0 := ofInt_natCast 2 (by norm_num)
  obtain ⟨hm, he, hh, -, hhup, hhlo⟩ := div_rounds mV eV 2 0 (by norm_num)
  have hhalf : (mV : ℚ) * (2 : ℚ) ^ eV / (((2 : Nat) : ℚ) * (2 : ℚ) ^ (0 : Int))
      = (mV : ℚ) * (2 : ℚ) ^ (eV + (-1)) := by
    rw [two_zpow_add, zpow_zero, zpow_neg, zpow_one]; push_cast; ring
  rw [hhalf] at hhup hhlo
  have hheq : (hm : ℚ) * (2 : ℚ) ^ he = (mV : ℚ) * (2 : ℚ) ^ (eV + (-1)) :=
    le_antisymm (hhup mV _ hmV (le_refl _)) (hhlo mV _ hmV (le_refl _))
  have hhval : (hm : ℚ) * (2 : ℚ) ^ he = (mV : ℚ) * (2 : ℚ) ^ eV / 2 := by
    rw [hheq, two_zpow_add, zpow_neg, zpow_one]; ring
  have hhpos : (0 : ℚ) < (hm : ℚ) * (2 : ℚ) ^ he := by rw [hhval]; positivity
  have hm0 : hm ≠ 0 := by
    intro h; rw [h] at hhpos; simp at hhpos
  -- the quotient
  obtain ⟨qm, qe, hq, -, hqup, -⟩ := div_rounds am ae hm he hm0
  have hq2 : (qm : ℚ) * (2 : ℚ) ^ qe ≤ 2 := by
    have := hqup 1 1 (by norm_num) (by
      rw [hhval, Nat.cast_one, one_mul, zpow_one, div_le_iff₀ (by positivity)]
      linarith)
    simpa using this
  have hq0 : (0 : ℚ) ≤ (qm : ℚ) * (2 : ℚ) ^ qe := mul_nonneg (by positivity) (two_zpow_pos _).le
  -- the difference and the error
  obtain ⟨sd, nd, ed, hd, hdval⟩ := add_fin false 1 0 true qm qe
  have hdabs : (nd : ℚ) * (2 : ℚ) ^ ed ≤ 1 := by
    rw [hdval]
    simp only [Double.toRat, Bool.false_eq_true, if_false, if_true, zpow_zero]
    rw [abs_le]
    constructor <;> push_cast <;> linarith
  have hd1 : val (round53 nd ed) ≤ ((1 : Nat) : ℚ) * (2 : ℚ) ^ (0 : Int) :=
    round53_le nd 1 ed 0 (by norm_num) (by rw [zpow_zero]; push_cast; linarith)
  rw [zpow_zero, mul_one, Nat.cast_one] at hd1
  have hd0 : 0 ≤ val (round53 nd ed) := mul_nonneg (by positivity) (two_zpow_pos _).le
  -- assembling
  have happrox : r.approxDouble (Double.fin false p e) = Double.fin false am ae := by
    simp only [Record.approxDouble, CYL_VOL, hS, hT]
    rw [ofInt_natCast S (by omega), ofInt_natCast T (by omega), hV, hr, ha]
  have herror : r.errorDouble (Double.fin false p e)
      = Double.fin false (round53 nd ed).1 (round53 nd ed).2 := by
    simp only [Record.errorDouble, ANALYTICAL, CYL_VOL, happrox]
    rw [hV, hof2, hh, hq]
    simp only [Double.sub, Double.neg, Double.one, Bool.not_false]
    rw [hd]
    simp only [Double.rounded, Double.abs]
  rw [happrox, herror]
  simp only [CYL_VOL]
  rw [hV]
  simp only [Double.zero, Double.one]
  rw [Double.lt_fin_iff, Double.le_fin_iff, Double.le_fin_iff, Double.le_fin_iff]
  simp only [Double.toRat, Bool.false_eq_true, if_false, one_mul, zpow_zero, Nat.cast_zero,
    zero_mul, Nat.cast_one, mul_one]
  simp only [val] at hd0 hd1
  exact ⟨hapos, ha1, hd0, hd1⟩

/-! Theorems: the integration loop -/

theorem afterTrials_zero (inside : Double → Double → Double → Bool) (rng : Random) :
    afterTrials inside 0 rng = rng := rfl

theorem afterTrials_succ (inside : Double → Double → Double → Bool) (n : Nat) (rng : Random) :
    afterTrials inside (n + 1) rng = (trial inside (afterTrials inside n rng)).2 := rfl

theorem afterTrials_succ_left (inside : Double → Double → Double → Bool) :
    ∀ (n : Nat) (rng : Random),
      afterTrials inside (n + 1) rng = afterTrials inside n (trial inside rng).2 := by
  intro n
  induction n with
  | zero => intro rng; rw [afterTrials_succ, afterTrials_zero, afterTrials_zero]
  | succ n ih =>
    intro rng
    rw [afterTrials_succ, ih, afterTrials_succ]

theorem afterTrials_add (inside : Double → Double → Double → Bool) :
    ∀ (b a : Nat) (rng : Random),
      afterTrials inside (a + b) rng = afterTrials inside b (afterTrials inside a rng) := by
  intro b
  induction b with
  | zero => intro a rng; rw [Nat.add_zero, afterTrials_zero]
  | succ b ih =>
    intro a rng
    rw [← Nat.add_assoc, afterTrials_succ, afterTrials_succ, ih]

theorem acceptedAmong_zero (inside : Double → Double → Double → Bool) (rng : Random) :
    acceptedAmong inside 0 rng = 0 := rfl

theorem acceptedAmong_succ (inside : Double → Double → Double → Bool) (n : Nat) (rng : Random) :
    acceptedAmong inside (n + 1) rng
      = (if (trial inside rng).1 then 1 else 0) + acceptedAmong inside n (trial inside rng).2 :=
  rfl

theorem acceptedAmong_le (inside : Double → Double → Double → Bool) :
    ∀ (n : Nat) (rng : Random), acceptedAmong inside n rng ≤ n := by
  intro n
  induction n with
  | zero => intro rng; rw [acceptedAmong_zero]
  | succ n ih =>
    intro rng
    have := ih (trial inside rng).2
    rw [acceptedAmong_succ]
    split_ifs <;> omega

theorem acceptedAmong_add (inside : Double → Double → Double → Bool) :
    ∀ (a b : Nat) (rng : Random),
      acceptedAmong inside (a + b) rng
        = acceptedAmong inside a rng + acceptedAmong inside b (afterTrials inside a rng) := by
  intro a
  induction a with
  | zero => intro b rng; rw [Nat.zero_add, acceptedAmong_zero, afterTrials_zero, Nat.zero_add]
  | succ a ih =>
    intro b rng
    have : a + 1 + b = (a + b) + 1 := by omega
    rw [this, acceptedAmong_succ, acceptedAmong_succ, afterTrials_succ_left, ih b _]
    omega

theorem body_ok (inside : Double → Double → Double → Bool) (st st1 : State)
    (h : body inside st = .ok st1) :
    st1.rng = (trial inside st.rng).2 ∧ st1.trials = st.trials + 1 ∧
      st1.successes = st.successes + (if (trial inside st.rng).1 then 1 else 0) := by
  unfold body at h
  by_cases ht : st.trials = INT_MAX
  · simp [ht] at h
  · rw [if_neg ht] at h
    by_cases ha : (trial inside st.rng).1 = true
    · simp only [ha, if_true] at h
      by_cases hs : st.successes = INT_MAX
      · simp [hs] at h
      · rw [if_neg hs] at h
        injection h with h
        subst h
        simp [ha]
    · simp only [ha] at h
      injection h with h
      subst h
      simp [ha]

theorem sampleLoop_zero (inside : Double → Double → Double → Bool) (samples : Int) (st : State) :
    sampleLoop inside samples 0 st
      = if st.successes < samples then .error .fuel else .ok st := rfl

theorem sampleLoop_succ (inside : Double → Double → Double → Bool) (samples : Int) (fuel : Nat)
    (st : State) :
    sampleLoop inside samples (fuel + 1) st
      = if st.successes < samples then
          match body inside st with
          | .error f => .error f
          | .ok st => sampleLoop inside samples fuel st
        else .ok st := rfl

theorem sampleLoop_done (inside : Double → Double → Double → Bool) (samples : Int) (fuel : Nat)
    (st : State) (h : ¬ st.successes < samples) : sampleLoop inside samples fuel st = .ok st := by
  cases fuel with
  | zero => rw [sampleLoop_zero, if_neg h]
  | succ fuel => rw [sampleLoop_succ, if_neg h]

/-- What a completed run of the accept/reject loop has done: `n` trials, the accepted ones
counted in `successes`. -/
theorem sampleLoop_ok (inside : Double → Double → Double → Bool) (samples : Int) :
    ∀ (fuel : Nat) (st st1 : State), sampleLoop inside samples fuel st = .ok st1 →
      ∃ n : Nat, n ≤ fuel ∧ st1.trials = st.trials + n ∧
        st1.successes = st.successes + acceptedAmong inside n st.rng ∧
        st1.rng = afterTrials inside n st.rng ∧ ¬ st1.successes < samples ∧
        (st.successes < samples → st1.successes = samples ∧ 1 ≤ n) ∧
        (¬ st.successes < samples → n = 0) := by
  intro fuel
  induction fuel with
  | zero =>
    intro st st1 h
    rw [sampleLoop_zero] at h
    by_cases hc : st.successes < samples
    · rw [if_pos hc] at h; exact absurd h (by simp)
    · rw [if_neg hc] at h
      injection h with h
      subst h
      refine ⟨0, le_refl _, by simp, ?_, ?_, hc, fun h => absurd h hc, fun _ => rfl⟩
      · rw [acceptedAmong_zero]; simp
      · rw [afterTrials_zero]
  | succ fuel ih =>
    intro st st1 h
    rw [sampleLoop_succ] at h
    by_cases hc : st.successes < samples
    · rw [if_pos hc] at h
      cases hb : body inside st with
      | error f => rw [hb] at h; exact absurd h (by simp)
      | ok st2 =>
        rw [hb] at h
        simp only at h
        obtain ⟨hb1, hb2, hb3⟩ := body_ok inside st st2 hb
        obtain ⟨n, hn, h1, h2, h3, h4, h5, h6⟩ := ih st2 st1 h
        refine ⟨n + 1, by omega, by rw [h1, hb2]; push_cast; ring, ?_, ?_, h4, ?_, ?_⟩
        · rw [h2, hb3, hb1, acceptedAmong_succ]
          split_ifs <;> push_cast <;> ring
        · rw [h3, hb1, afterTrials_succ_left]
        · intro _
          refine ⟨?_, by omega⟩
          by_cases hc2 : st2.successes < samples
          · exact (h5 hc2).1
          · have hn0 := h6 hc2
            subst hn0
            rw [acceptedAmong_zero] at h2
            simp only [Nat.cast_zero, add_zero] at h2
            rw [h2]
            rw [hb3] at hc2 ⊢
            split_ifs at hc2 ⊢ <;> omega
        · intro hcon; exact absurd hc hcon
    · rw [if_neg hc] at h
      injection h with h
      subst h
      refine ⟨0, by omega, by simp, ?_, ?_, hc, fun h => absurd h hc, fun _ => rfl⟩
      · rw [acceptedAmong_zero]; simp
      · rw [afterTrials_zero]

theorem body_trials_le (inside : Double → Double → Double → Bool) (st st1 : State)
    (h : body inside st = .ok st1) (hle : st.trials ≤ INT_MAX) : st1.trials ≤ INT_MAX := by
  obtain ⟨-, h1, -⟩ := body_ok inside st st1 h
  have hne : st.trials ≠ INT_MAX := by
    intro hc
    unfold body at h
    rw [if_pos hc] at h
    exact absurd h (by simp)
  rw [h1]
  omega

theorem sampleLoop_trials_le (inside : Double → Double → Double → Bool) (samples : Int) :
    ∀ (fuel : Nat) (st st1 : State), sampleLoop inside samples fuel st = .ok st1 →
      st.trials ≤ INT_MAX → st1.trials ≤ INT_MAX := by
  intro fuel
  induction fuel with
  | zero =>
    intro st st1 h hle
    rw [sampleLoop_zero] at h
    by_cases hc : st.successes < samples
    · rw [if_pos hc] at h; exact absurd h (by simp)
    · rw [if_neg hc] at h
      injection h with h
      rw [← h]; exact hle
  | succ fuel ih =>
    intro st st1 h hle
    rw [sampleLoop_succ] at h
    by_cases hc : st.successes < samples
    · rw [if_pos hc] at h
      cases hb : body inside st with
      | error f => rw [hb] at h; exact absurd h (by simp)
      | ok st2 =>
        rw [hb] at h
        exact ih st2 st1 h (body_trials_le inside st st2 hb hle)
    · rw [if_neg hc] at h
      injection h with h
      rw [← h]; exact hle

theorem sweep_zero (inside : Double → Double → Double → Bool) (cap : Nat) (max step : Int)
    (st : State) (min : Int) (out : List Record) :
    sweep inside cap max step 0 st min out = .error .fuel := rfl

theorem sweep_succ (inside : Double → Double → Double → Bool) (cap : Nat) (max step : Int)
    (fuel : Nat) (st : State) (min : Int) (out : List Record) :
    sweep inside cap max step (fuel + 1) st min out
      = match sampleLoop inside min cap st with
        | .error f => .error f
        | .ok st1 =>
          if min + step < INT_MIN ∨ INT_MAX < min + step then .error .overflow
          else if min + step < max then
            sweep inside cap max step fuel st1 (min + step)
              (out ++ [{ samplecount := min, successes := st1.successes, trials := st1.trials }])
          else .ok (out ++ [{ samplecount := min, successes := st1.successes, trials := st1.trials }]) :=
  rfl

/-- Every record of a completed sweep comes from a completed run of the accept/reject loop, and
an invariant of the runs holds at the start of each. -/
theorem sweep_ok (inside : Double → Double → Double → Bool) (cap : Nat) (max step : Int)
    (J : State → Int → Prop) (Q : Record → Prop)
    (hJ : ∀ st min st1, J st min → sampleLoop inside min cap st = .ok st1 →
      min + step < max → J st1 (min + step))
    (hQ : ∀ st min st1, J st min → sampleLoop inside min cap st = .ok st1 →
      Q { samplecount := min, successes := st1.successes, trials := st1.trials }) :
    ∀ (fuel : Nat) (st : State) (min : Int) (out recs : List Record), J st min →
      sweep inside cap max step fuel st min out = .ok recs →
      ∃ recs1, recs = out ++ recs1 ∧ ∀ r ∈ recs1, Q r := by
  intro fuel
  induction fuel with
  | zero =>
    intro st min out recs _ h
    rw [sweep_zero] at h
    exact absurd h (by simp)
  | succ fuel ih =>
    intro st min out recs hj h
    rw [sweep_succ] at h
    cases hl : sampleLoop inside min cap st with
    | error f => rw [hl] at h; exact absurd h (by simp)
    | ok st1 =>
      rw [hl] at h
      simp only at h
      by_cases hov : min + step < INT_MIN ∨ INT_MAX < min + step
      · rw [if_pos hov] at h; exact absurd h (by simp)
      · rw [if_neg hov] at h
        have hq := hQ st min st1 hj hl
        by_cases hc : min + step < max
        · rw [if_pos hc] at h
          obtain ⟨recs1, h1, h2⟩ := ih st1 (min + step) _ recs (hJ st min st1 hj hl hc) h
          refine ⟨{ samplecount := min, successes := st1.successes, trials := st1.trials } :: recs1,
            by rw [h1]; simp, ?_⟩
          intro r hr
          rcases List.mem_cons.1 hr with hr | hr
          · rw [hr]; exact hq
          · exact h2 r hr
        · rw [if_neg hc] at h
          injection h with h
          refine ⟨[{ samplecount := min, successes := st1.successes, trials := st1.trials }],
            h.symm, ?_⟩
          intro r hr
          rw [List.mem_singleton.1 hr]; exact hq

theorem main_eq (inside : Double → Double → Double → Bool) (cap fuel : Nat) (rng : Random)
    (mode samples min max step : Int) :
    main inside cap fuel rng mode samples min max step
      = sweep inside cap (if mode = 0 then (if mode = 0 then samples else min) else max) step fuel
          { rng := rng, successes := 0, trials := 0 } (if mode = 0 then samples else min) [] := rfl

theorem approx_error_bounds {K : Type} [LinearOrderedField K] (r : Record) (V : K) (hV : 0 < V)
    (h0 : 0 < r.successes) (h1 : r.successes ≤ r.trials) :
    0 < r.approx V ∧ r.approx V ≤ V ∧ 0 ≤ r.error V ∧ r.error V ≤ 1 := by
  have hs : (0 : K) < (r.successes : K) := by exact_mod_cast h0
  have hst : (r.successes : K) ≤ (r.trials : K) := by exact_mod_cast h1
  have ht : (0 : K) < (r.trials : K) := lt_of_lt_of_le hs hst
  have hq0 : (0 : K) < (r.successes : K) / (r.trials : K) := div_pos hs ht
  have hq1 : (r.successes : K) / (r.trials : K) ≤ 1 := (div_le_one ht).2 hst
  have hV2 : V / 2 ≠ 0 := by positivity
  have herr : r.approx V / (V / 2) = 2 * ((r.successes : K) / (r.trials : K)) := by
    unfold Record.approx
    field_simp
    ring
  refine ⟨mul_pos hq0 hV, ?_, abs_nonneg _, ?_⟩
  · unfold Record.approx
    calc (r.successes : K) / (r.trials : K) * V ≤ 1 * V := mul_le_mul_of_nonneg_right hq1 hV.le
      _ = V := one_mul V
  · unfold Record.error
    rw [herr, abs_le]
    constructor <;> linarith

theorem sweepLength_last (min max step : Int) (hstep : 0 < step) (h : ¬ min + step < max) :
    sweepLength min max step = 1 := by
  unfold sweepLength
  have hs : (0 : ℚ) < (step : ℚ) := by exact_mod_cast hstep
  have h1 : ⌈((max - min : Int) : ℚ) / (step : ℚ)⌉ ≤ 1 := by
    rw [Int.ceil_le, div_le_iff₀ hs]
    have : max - min ≤ 1 * step := by omega
    exact_mod_cast this
  rw [max_eq_left h1]; rfl

theorem sweepLength_step (min max step : Int) (hstep : 0 < step) (h : min + step < max) :
    sweepLength min max step = sweepLength (min + step) max step + 1 := by
  unfold sweepLength
  have hs : (0 : ℚ) < (step : ℚ) := by exact_mod_cast hstep
  have hx : (0 : ℚ) < ((max - (min + step) : Int) : ℚ) / (step : ℚ) := by
    apply div_pos _ hs
    have : 0 < max - (min + step) := by omega
    exact_mod_cast this
  have hsplit : ((max - min : Int) : ℚ) / (step : ℚ)
      = ((max - (min + step) : Int) : ℚ) / (step : ℚ) + 1 := by
    push_cast
    field_simp
    ring
  have hc : 0 < ⌈((max - (min + step) : Int) : ℚ) / (step : ℚ)⌉ := Int.ceil_pos.2 hx
  rw [hsplit, Int.ceil_add_one]
  rw [max_eq_right (by omega), max_eq_right (by omega)]
  omega

theorem sweepCounts_last (min max step : Int) (hstep : 0 < step) (h : ¬ min + step < max) :
    sweepCounts min max step = [min] := by
  unfold sweepCounts
  rw [sweepLength_last min max step hstep h]
  have : List.range 1 = [0] := rfl
  rw [this]
  simp

theorem sweepCounts_step (min max step : Int) (hstep : 0 < step) (h : min + step < max) :
    sweepCounts min max step = min :: sweepCounts (min + step) max step := by
  unfold sweepCounts
  rw [sweepLength_step min max step hstep h, List.range_succ_eq_map]
  simp only [List.map_cons, List.map_map]
  congr 1
  · simp
  · apply List.map_congr_left
    intro k _
    simp only [Function.comp]
    push_cast
    ring

/-- The sample counts recorded by a completed sweep. -/
theorem sweep_samplecounts (inside : Double → Double → Double → Bool) (cap : Nat)
    (max step : Int) (hstep : 0 < step) :
    ∀ (fuel : Nat) (st : State) (min : Int) (out recs : List Record),
      sweep inside cap max step fuel st min out = .ok recs →
      recs.map Record.samplecount = out.map Record.samplecount ++ sweepCounts min max step := by
  intro fuel
  induction fuel with
  | zero =>
    intro st min out recs h
    rw [sweep_zero] at h
    exact absurd h (by simp)
  | succ fuel ih =>
    intro st min out recs h
    rw [sweep_succ] at h
    cases hl : sampleLoop inside min cap st with
    | error f => rw [hl] at h; exact absurd h (by simp)
    | ok st1 =>
      rw [hl] at h
      simp only at h
      by_cases hov : min + step < INT_MIN ∨ INT_MAX < min + step
      · rw [if_pos hov] at h; exact absurd h (by simp)
      · rw [if_neg hov] at h
        by_cases hc : min + step < max
        · rw [if_pos hc] at h
          rw [ih st1 (min + step) _ recs h, sweepCounts_step min max step hstep hc]
          simp
        · rw [if_neg hc] at h
          injection h with h
          rw [← h, sweepCounts_last min max step hstep hc]
          simp

theorem body_accept (inside : Double → Double → Double → Bool) (st : State)
    (ht : st.trials ≠ INT_MAX) (hs : st.successes ≠ INT_MAX)
    (ha : (trial inside st.rng).1 = true) :
    body inside st
      = .ok (State.mk (trial inside st.rng).2 (st.successes + 1) (st.trials + 1)) := by
  unfold body
  rw [if_neg ht]
  simp only [ha, if_true]
  rw [if_neg hs]

theorem body_reject (inside : Double → Double → Double → Bool) (st : State)
    (ht : st.trials ≠ INT_MAX) (ha : (trial inside st.rng).1 = false) :
    body inside st = .ok (State.mk (trial inside st.rng).2 st.successes (st.trials + 1)) := by
  unfold body
  rw [if_neg ht]
  simp only [ha, Bool.false_eq_true, if_false]

/-- When the trial number `n` from the current state is accepted, the loop reaches its next
success within `n + 1` iterations. -/
theorem sampleLoop_until_accept (inside : Double → Double → Double → Bool) (samples : Int)
    (hsamples : samples ≤ INT_MAX) :
    ∀ (n : Nat) (st : State) (cap : Nat), st.successes < samples →
      (trial inside (afterTrials inside n st.rng)).1 = true →
      st.trials + (n + 1 : Nat) ≤ INT_MAX → n + 1 ≤ cap →
      ∃ (j : Nat) (st2 : State), j ≤ n ∧ st2.successes = st.successes + 1 ∧
        st2.trials = st.trials + (j + 1 : Nat) ∧ st2.rng = afterTrials inside (j + 1) st.rng ∧
        sampleLoop inside samples cap st = sampleLoop inside samples (cap - (j + 1)) st2 := by
  have haccept : ∀ (st : State) (c : Nat), st.successes < samples → st.trials ≠ INT_MAX →
      (trial inside st.rng).1 = true →
      ∃ st2 : State, st2.successes = st.successes + 1 ∧ st2.trials = st.trials + (0 + 1 : Nat) ∧
        st2.rng = afterTrials inside (0 + 1) st.rng ∧
        sampleLoop inside samples (c + 1) st = sampleLoop inside samples (c + 1 - (0 + 1)) st2 := by
    intro st c hlt ht ha
    have hs : st.successes ≠ INT_MAX := by omega
    have hb := body_accept inside st ht hs ha
    generalize State.mk (trial inside st.rng).2 (st.successes + 1) (st.trials + 1) = st2 at hb
    obtain ⟨hb1, hb2, hb3⟩ := body_ok inside st st2 hb
    rw [ha] at hb3
    refine ⟨st2, by simpa using hb3, by rw [hb2]; simp, ?_, ?_⟩
    · rw [hb1, Nat.zero_add, afterTrials_succ, afterTrials_zero]
    · rw [sampleLoop_succ, if_pos hlt, hb]
      simp only [Nat.zero_add, Nat.add_sub_cancel]
  intro n
  induction n with
  | zero =>
    intro st cap hlt hacc htr hcap
    obtain ⟨c, hc⟩ : ∃ c, cap = c + 1 := ⟨cap - 1, by omega⟩
    subst hc
    rw [afterTrials_zero] at hacc
    have ht : st.trials ≠ INT_MAX := by push_cast at htr; omega
    obtain ⟨st2, h1, h2, h3, h4⟩ := haccept st c hlt ht hacc
    exact ⟨0, st2, le_refl _, h1, h2, h3, h4⟩
  | succ n ih =>
    intro st cap hlt hacc htr hcap
    obtain ⟨c, hc⟩ : ∃ c, cap = c + 1 := ⟨cap - 1, by omega⟩
    subst hc
    have ht : st.trials ≠ INT_MAX := by push_cast at htr; omega
    cases ha : (trial inside st.rng).1 with
    | true =>
      obtain ⟨st2, h1, h2, h3, h4⟩ := haccept st c hlt ht ha
      exact ⟨0, st2, by omega, h1, h2, h3, h4⟩
    | false =>
      have hb := body_reject inside st ht ha
      generalize State.mk (trial inside st.rng).2 st.successes (st.trials + 1) = st1 at hb
      obtain ⟨hb1, hb2, hb3⟩ := body_ok inside st st1 hb
      rw [ha] at hb3
      simp only [Bool.false_eq_true, if_false, add_zero] at hb3
      rw [afterTrials_succ_left, ← hb1] at hacc
      obtain ⟨j, st2, hj, h1, h2, h3, h4⟩ := ih st1 c (by rw [hb3]; exact hlt) hacc
        (by rw [hb2]; push_cast at htr ⊢; omega) (by omega)
      refine ⟨j + 1, st2, by omega, by rw [h1, hb3], by rw [h2, hb2]; push_cast; ring, ?_, ?_⟩
      · rw [h3, hb1, ← afterTrials_succ_left]
      · rw [sampleLoop_succ, if_pos hlt, hb]
        simp only
        rw [h4]
        have : c + 1 - (j + 1 + 1) = c - (j + 1) := by omega
        rw [this]

/-- The accept/reject loop reaches its target when every window of `B` trials holds an accepted
one, the fuel allows `B` trials for each missing success, and `trials` stays an `int`. -/
theorem sampleLoop_total (inside : Double → Double → Double → Bool) (rng0 : Random) (B : Nat)
    (hacc : ∀ k : Nat, ∃ n : Nat, n < B ∧ (trial inside (afterTrials inside (k + n) rng0)).1 = true)
    (samples : Int) (hsamples : samples ≤ INT_MAX) :
    ∀ (d : Nat) (st : State) (k cap : Nat), st.rng = afterTrials inside k rng0 →
      st.successes + d = samples → st.trials + ((B * d : Nat) : Int) ≤ INT_MAX → B * d ≤ cap →
      ∃ st1 : State, sampleLoop inside samples cap st = .ok st1 ∧ st1.successes = samples ∧
        st1.trials ≤ st.trials + ((B * d : Nat) : Int) ∧
        ∃ k1 : Nat, st1.rng = afterTrials inside k1 rng0 := by
  intro d
  induction d with
  | zero =>
    intro st k cap hr hs _ _
    refine ⟨st, sampleLoop_done inside samples cap st (by push_cast at hs; omega),
      by push_cast at hs; omega, by simp, k, hr⟩
  | succ d ih =>
    intro st k cap hr hs htr hcap
    obtain ⟨n, hn, ha⟩ := hacc k
    rw [afterTrials_add, ← hr] at ha
    have hmul : B * (d + 1) = B * d + B := Nat.mul_succ B d
    rw [hmul] at htr hcap
    push_cast at htr hs
    obtain ⟨j, st2, hj, h1, h2, h3, h4⟩ := sampleLoop_until_accept inside samples hsamples n st cap
      (by omega) ha (by push_cast; omega) (by omega)
    obtain ⟨st1, h5, h6, h7, k1, h8⟩ := ih st2 (k + (j + 1)) (cap - (j + 1))
      (by rw [h3, hr, ← afterTrials_add]) (by rw [h1]; omega)
      (by rw [h2]; push_cast; omega) (by omega)
    refine ⟨st1, by rw [h4, h5], h6, ?_, k1, h8⟩
    rw [hmul]
    rw [h2] at h7
    push_cast at h7 ⊢
    omega

theorem sweepLength_pos (min max step : Int) : 1 ≤ sweepLength min max step := by
  unfold sweepLength
  have := le_max_left (1 : Int) ⌈((max - min : Int) : ℚ) / (step : ℚ)⌉
  omega

/-- A sweep runs to completion when every window of `B` trials holds an accepted one and the
counters stay within `int`. -/
theorem sweep_total (inside : Double → Double → Double → Bool) (rng0 : Random) (B : Nat)
    (hacc : ∀ k : Nat, ∃ n : Nat, n < B ∧ (trial inside (afterTrials inside (k + n) rng0)).1 = true)
    (max step M : Int) (hstep : 0 < step) (hmaxM : max ≤ M)
    (hB : (B : Int) * (M + step) ≤ INT_MAX) (cap : Nat) (hcap : (B : Int) * M ≤ (cap : Int)) :
    ∀ (fuel : Nat) (st : State) (min : Int) (out : List Record) (k : Nat),
      st.rng = afterTrials inside k rng0 → 0 ≤ st.successes → st.successes ≤ min → 0 < min →
      min ≤ M → st.trials ≤ (B : Int) * st.successes → sweepLength min max step ≤ fuel →
      ∃ recs, sweep inside cap max step fuel st min out = .ok recs := by
  have hB1 : (1 : Int) ≤ (B : Int) := by
    obtain ⟨n, hn, -⟩ := hacc 0
    have : 1 ≤ B := by omega
    exact_mod_cast this
  intro fuel
  induction fuel with
  | zero =>
    intro st min out k _ _ _ _ _ _ hf
    have := sweepLength_pos min max step
    omega
  | succ fuel ih =>
    intro st min out k hr hs0 hsm hmin hminM htr hf
    obtain ⟨d, hd⟩ : ∃ d : Nat, st.successes + (d : Int) = min := ⟨(min - st.successes).toNat, by omega⟩
    have hM : 0 < M := by omega
    have h1 : (B : Int) * min ≤ (B : Int) * M := mul_le_mul_of_nonneg_left hminM (by omega)
    have h2 : M + step ≤ (B : Int) * (M + step) := le_mul_of_one_le_left (by omega) hB1
    have h3 : (B : Int) * min = (B : Int) * st.successes + (B : Int) * (d : Int) := by
      rw [← hd]; ring
    have h4 : (0 : Int) ≤ (B : Int) * st.successes := mul_nonneg (by omega) hs0
    have h5 : (B : Int) * (M + step) = (B : Int) * M + (B : Int) * step := by ring
    have h6 : (0 : Int) ≤ (B : Int) * step := mul_nonneg (by omega) hstep.le
    have hcast : ((B * d : Nat) : Int) = (B : Int) * (d : Int) := by push_cast; ring
    have hIM : min ≤ INT_MAX := by omega
    obtain ⟨st1, hl, hs1, ht1, k1, hk1⟩ := sampleLoop_total inside rng0 B hacc min hIM d st k cap hr
      hd (by rw [hcast]; omega) (by
        have : ((B * d : Nat) : Int) ≤ (cap : Int) := by rw [hcast]; omega
        exact_mod_cast this)
    rw [hcast] at ht1
    rw [sweep_succ, hl]
    simp only
    have hov : ¬ (min + step < INT_MIN ∨ INT_MAX < min + step) := by
      have : INT_MIN < 0 := by decide
      omega
    rw [if_neg hov]
    by_cases hc : min + step < max
    · rw [if_pos hc]
      have hlen := sweepLength_step min max step hstep hc
      exact ih st1 (min + step) _ k1 hk1 (by omega) (by omega) (by omega) (by omega)
        (by rw [hs1]; omega) (by omega)
    · rw [if_neg hc]
      exact ⟨_, rfl⟩

/-! Theorems: the claims on the integration loop -/

/-- C1. Every record of a completed run of the integrator, in single-run mode or at any step of
a sweep, whose target sample count is at least 1 has `0 < successes ≤ trials`.  Hence, in exact
arithmetic and for a positive bounding volume `V` (the claim takes `V = π²`), the estimate
`(successes/trials) * V` lies in `(0, V]` and the relative error `|1 - estimate/(V/2)|` lies in
`[0, 1]`; and in `double`, as the code computes them from a positive finite `PI`, the value
pushed on `approx` lies in `(0, CYL_VOL]` and the value pushed on `error` lies in `[0, 1]`. -/
theorem C1_record_bounds {K : Type} [LinearOrderedField K]
    (inside : Double → Double → Double → Bool) (cap fuel : Nat) (rng : Random)
    (mode samples min max step : Int) (recs : List Record) (r : Record) (V : K) (hV : 0 < V)
    (p : Nat) (e : Int) (hp : 0 < p)
    (h : main inside cap fuel rng mode samples min max step = .ok recs) (hr : r ∈ recs)
    (ht : 1 ≤ r.samplecount) :
    0 < r.successes ∧ r.successes ≤ r.trials ∧
      (0 < r.approx V ∧ r.approx V ≤ V ∧ 0 ≤ r.error V ∧ r.error V ≤ 1) ∧
      (Double.lt Double.zero (r.approxDouble (Double.fin false p e)) = true ∧
        Double.le (r.approxDouble (Double.fin false p e)) (CYL_VOL (Double.fin false p e)) = true ∧
        Double.le Double.zero (r.errorDouble (Double.fin false p e)) = true ∧
        Double.le (r.errorDouble (Double.fin false p e)) Double.one = true) := by
  rw [main_eq] at h
  obtain ⟨recs1, h1, h2⟩ := sweep_ok inside cap _ step
    (fun st _ => 0 ≤ st.successes ∧ st.successes ≤ st.trials ∧ st.trials ≤ INT_MAX)
    (fun r => 1 ≤ r.samplecount → 0 < r.successes ∧ r.successes ≤ r.trials ∧ r.trials ≤ INT_MAX)
    (by
      intro st min st1 hj hl _
      obtain ⟨n, -, h3, h4, -, -, -, -⟩ := sampleLoop_ok inside min cap st st1 hl
      have := acceptedAmong_le inside n st.rng
      have := sampleLoop_trials_le inside min cap st st1 hl hj.2.2
      refine ⟨?_, ?_, ?_⟩ <;> omega)
    (by
      intro st min st1 hj hl hmin
      obtain ⟨n, -, h3, h4, -, h5, -, -⟩ := sampleLoop_ok inside min cap st st1 hl
      have := acceptedAmong_le inside n st.rng
      have := sampleLoop_trials_le inside min cap st st1 hl hj.2.2
      simp only at hmin ⊢
      refine ⟨?_, ?_, ?_⟩ <;> omega)
    fuel _ _ [] recs (by simp [INT_MAX]) h
  rw [List.nil_append] at h1
  subst h1
  obtain ⟨h3, h4, h5⟩ := h2 r hr ht
  exact ⟨h3, h4, approx_error_bounds r V hV h3 h4, double_bounds r p e hp h3 h4 h5⟩

set_option maxRecDepth 100000 in
/-- C1 on the sweep `min = 1`, `max = 4`, `step = 1` run with the default generator and the
sample acceptance test, at its second record, with `V = π²` and with `PI` the double nearest
to `π`. -/
theorem C1_record_bounds_witness :
    (0 : Int) < (Record.mk 2 2 5).successes ∧ (Record.mk 2 2 5).successes ≤ (Record.mk 2 2 5).trials ∧
      (0 < (Record.mk 2 2 5).approx (Real.pi ^ 2) ∧
        (Record.mk 2 2 5).approx (Real.pi ^ 2) ≤ Real.pi ^ 2 ∧
        0 ≤ (Record.mk 2 2 5).error (Real.pi ^ 2) ∧ (Record.mk 2 2 5).error (Real.pi ^ 2) ≤ 1) ∧
      (Double.lt Double.zero ((Record.mk 2 2 5).approxDouble PI_nearest) = true ∧
        Double.le ((Record.mk 2 2 5).approxDouble PI_nearest) (CYL_VOL PI_nearest) = true ∧
        Double.le Double.zero ((Record.mk 2 2 5).errorDouble PI_nearest) = true ∧
        Double.le ((Record.mk 2 2 5).errorDouble PI_nearest) Double.one = true) :=
  C1_record_bounds sampleInside 100 100 (Random.Random 5555) 1 1000 1 4 1
    [Record.mk 1 1 2, Record.mk 2 2 5, Record.mk 3 3 6] (Record.mk 2 2 5) (Real.pi ^ 2)
    (by positivity) 7074237752028440 (-51) (by decide) (by decide) (by decide) (by decide)

/-- C10. One iteration of the accept/reject loop adds 1 to `trials` and adds 1 to `successes`
exactly when the trial is accepted, so it preserves `successes ≤ trials`; and in every record of
a completed run whose first target and whose step are at least 1, in single-run mode or in a
sweep, the success count equals the target sample count of the record and is at most the trial
count. -/
theorem C10_successes_eq_target (inside : Double → Double → Double → Bool) (cap fuel : Nat)
    (rng : Random) (mode samples min max step : Int) (recs : List Record)
    (hmin : 1 ≤ (if mode = 0 then samples else min)) (hstep : 1 ≤ step)
    (h : main inside cap fuel rng mode samples min max step = .ok recs) :
    (∀ st st1 : State, body inside st = .ok st1 →
      st1.trials = st.trials + 1 ∧
      st1.successes = st.successes + (if (trial inside st.rng).1 then 1 else 0) ∧
      (st.successes ≤ st.trials → st1.successes ≤ st1.trials)) ∧
    (∀ r ∈ recs, r.successes = r.samplecount ∧ r.successes ≤ r.trials) := by
  constructor
  · intro st st1 hb
    obtain ⟨-, h1, h2⟩ := body_ok inside st st1 hb
    refine ⟨h1, h2, ?_⟩
    intro hle
    rw [h1, h2]
    split_ifs <;> omega
  · rw [main_eq] at h
    obtain ⟨recs1, h1, h2⟩ := sweep_ok inside cap _ step
      (fun st min => st.successes < min ∧ st.successes ≤ st.trials)
      (fun r => r.successes = r.samplecount ∧ r.successes ≤ r.trials)
      (by
        intro st min st1 hj hl _
        obtain ⟨n, -, h3, h4, -, -, h5, -⟩ := sampleLoop_ok inside min cap st st1 hl
        have := acceptedAmong_le inside n st.rng
        have := (h5 hj.1).1
        constructor <;> omega)
      (by
        intro st min st1 hj hl
        obtain ⟨n, -, h3, h4, -, -, h5, -⟩ := sampleLoop_ok inside min cap st st1 hl
        have := acceptedAmong_le inside n st.rng
        have := (h5 hj.1).1
        simp only
        constructor <;> omega)
      fuel _ _ [] recs (by simp only; omega) h
    rw [List.nil_append] at h1
    subst h1
    exact h2

set_option maxRecDepth 100000 in
/-- C10 on the single run with 5 samples and on the sweep `min = 2`, `max = 7`, `step = 2`, both
with the default generator and the sample acceptance test. -/
theorem C10_successes_eq_target_witness :
    (∀ r ∈ [Record.mk 5 5 11], r.successes = r.samplecount ∧ r.successes ≤ r.trials) ∧
    (∀ r ∈ [Record.mk 2 2 5, Record.mk 4 4 9, Record.mk 6 6 13],
      r.successes = r.samplecount ∧ r.successes ≤ r.trials) :=
  ⟨(C10_successes_eq_target sampleInside 100 100 (Random.Random 5555) 0 5 100 100000 1
      [Record.mk 5 5 11] (by decide) (by decide) (by decide)).2,
   (C10_successes_eq_target sampleInside 100 100 (Random.Random 5555) 1 1000 2 7 2
      [Record.mk 2 2 5, Record.mk 4 4 9, Record.mk 6 6 13] (by decide) (by decide) (by decide)).2⟩

set_option maxRecDepth 100000 in
/-- C2, as the claim states it, fails on the sweep `min = 1`, `max = 4`, `step = 1` run with the
default generator and the sample acceptance test: the code records the trial counts 2, 5, 6,
while runs that start from fresh counters, with the generator state carried over, record 2, 4, 7.
The second run of the code makes three trials, one of them accepted, and records `(2, 5)`. -/
theorem C2_fresh_counters_refuted :
    main sampleInside 100 100 (Random.Random 5555) 1 1000 1 4 1
      = .ok [Record.mk 1 1 2, Record.mk 2 2 5, Record.mk 3 3 6] ∧
    specSweepFresh sampleInside 100 4 1 100 (Random.Random 5555) 1 []
      = .ok [Record.mk 1 1 2, Record.mk 2 2 4, Record.mk 3 3 7] ∧
    main sampleInside 100 100 (Random.Random 5555) 1 1000 1 4 1
      ≠ specSweepFresh sampleInside 100 4 1 100 (Random.Random 5555) 1 [] := by
  decide

/-- C2, amended. The counters `successes` and `trials` are set to 0 once, before the first run,
and carry over from run to run like the generator state: in every record of a completed run of
the integrator, `trials` is the number `n` of all trials made since the start, from the initial
generator state, and `successes` is the number of accepted ones among these `n` trials. -/
theorem C2_counters_accumulate (inside : Double → Double → Double → Bool) (cap fuel : Nat)
    (rng : Random) (mode samples min max step : Int) (recs : List Record)
    (h : main inside cap fuel rng mode samples min max step = .ok recs) :
    ∀ r ∈ recs, ∃ n : Nat, r.trials = n ∧ r.successes = acceptedAmong inside n rng := by
  rw [main_eq] at h
  obtain ⟨recs1, h1, h2⟩ := sweep_ok inside cap _ step
    (fun st _ => ∃ n : Nat, st.trials = n ∧ st.successes = acceptedAmong inside n rng ∧
      st.rng = afterTrials inside n rng)
    (fun r => ∃ n : Nat, r.trials = n ∧ r.successes = acceptedAmong inside n rng)
    (by
      intro st min st1 hj hl _
      obtain ⟨k, hk1, hk2, hk3⟩ := hj
      obtain ⟨n, -, h3, h4, h5, -, -, -⟩ := sampleLoop_ok inside min cap st st1 hl
      refine ⟨k + n, by rw [h3, hk1]; push_cast; ring, ?_, ?_⟩
      · rw [h4, hk2, hk3, acceptedAmong_add]; push_cast; ring
      · rw [h5, hk3, afterTrials_add])
    (by
      intro st min st1 hj hl
      obtain ⟨k, hk1, hk2, hk3⟩ := hj
      obtain ⟨n, -, h3, h4, h5, -, -, -⟩ := sampleLoop_ok inside min cap st st1 hl
      refine ⟨k + n, by simp only; rw [h3, hk1]; push_cast; ring, ?_⟩
      simp only
      rw [h4, hk2, hk3, acceptedAmong_add]; push_cast; ring)
    fuel _ _ [] recs ⟨0, by simp, by rw [acceptedAmong_zero]; simp, by rw [afterTrials_zero]⟩ h
  rw [List.nil_append] at h1
  subst h1
  exact h2

set_option maxRecDepth 100000 in
/-- C2, amended, on the sweep `min = 1`, `max = 4`, `step = 1` run with the default generator and
the sample acceptance test. -/
theorem C2_counters_accumulate_witness :
    (∃ n : Nat, (Record.mk 2 2 5).trials = n ∧
      (Record.mk 2 2 5).successes = acceptedAmong sampleInside n (Random.Random 5555)) ∧
    (∃ n : Nat, (Record.mk 3 3 6).trials = n ∧
      (Record.mk 3 3 6).successes = acceptedAmong sampleInside n (Random.Random 5555)) :=
  ⟨C2_counters_accumulate sampleInside 100 100 (Random.Random 5555) 1 1000 1 4 1
      [Record.mk 1 1 2, Record.mk 2 2 5, Record.mk 3 3 6] (by decide) (Record.mk 2 2 5)
      (by decide),
   C2_counters_accumulate sampleInside 100 100 (Random.Random 5555) 1 1000 1 4 1
      [Record.mk 1 1 2, Record.mk 2 2 5, Record.mk 3 3 6] (by decide) (Record.mk 3 3 6)
      (by decide)⟩

/-- C9. With target 0 the accept/reject loop started from fresh counters returns at once, for
every fuel, with `successes = 0`, `trials = 0` and the generator state unchanged; the single run
with `samples = 0` then records `trials = 0`, the divisor of the estimate.  With a target of at
least 1 every completed loop started from fresh counters has made at least one trial, so the
divisor is not 0; without an iteration, that is with fuel 0, the loop does not return. -/
theorem C9_zero_target (inside : Double → Double → Double → Bool) (rng : Random) :
    (∀ fuel : Nat, sampleLoop inside 0 fuel { rng := rng, successes := 0, trials := 0 }
        = .ok { rng := rng, successes := 0, trials := 0 }) ∧
    (∀ (cap fuel : Nat) (min max step : Int), 0 ≤ step → step ≤ INT_MAX →
      main inside cap (fuel + 1) rng 0 0 min max step
        = .ok [{ samplecount := 0, successes := 0, trials := 0 }]) ∧
    (∀ (samples : Int) (fuel : Nat) (st1 : State), 1 ≤ samples →
      sampleLoop inside samples fuel { rng := rng, successes := 0, trials := 0 } = .ok st1 →
      1 ≤ st1.trials ∧ st1.trials ≠ 0) ∧
    (∀ samples : Int, 1 ≤ samples →
      sampleLoop inside samples 0 { rng := rng, successes := 0, trials := 0 } = .error .fuel) := by
  refine ⟨?_, ?_, ?_, ?_⟩
  pick_goal 4
  · intro samples hs
    have hlt : (State.mk rng 0 0).successes < samples := by simp only; omega
    rw [sampleLoop_zero, if_pos hlt]
  · intro fuel
    exact sampleLoop_done inside 0 fuel _ (by simp)
  · intro cap fuel min max step h0 h1
    rw [main_eq, sweep_succ]
    simp only [if_true]
    rw [sampleLoop_done inside 0 cap _ (by simp)]
    have hov : ¬ ((0 : Int) + step < INT_MIN ∨ INT_MAX < 0 + step) := by
      simp only [INT_MIN, INT_MAX] at *; omega
    have hc : ¬ ((0 : Int) + step < 0) := by omega
    simp only [hov, hc, if_false, List.nil_append]
  · intro samples fuel st1 hs h
    obtain ⟨n, -, h1, -, -, -, h2, -⟩ := sampleLoop_ok inside samples fuel _ st1 h
    have := (h2 (by simp only; omega)).2
    simp only at h1
    omega

set_option maxRecDepth 100000 in
/-- C9 on the default generator with the sample acceptance test: target 0, and target 1 reached
after two trials. -/
theorem C9_zero_target_witness :
    sampleLoop sampleInside 0 0 (State.mk (Random.Random 5555) 0 0)
      = .ok (State.mk (Random.Random 5555) 0 0) ∧
    main sampleInside 0 1 (Random.Random 5555) 0 0 100 100000 1 = .ok [Record.mk 0 0 0] ∧
    ((1 : Int) ≤ 2 ∧ (2 : Int) ≠ 0) ∧
    sampleLoop sampleInside 1 0 (State.mk (Random.Random 5555) 0 0) = .error .fuel :=
  ⟨(C9_zero_target sampleInside (Random.Random 5555)).1 0,
   (C9_zero_target sampleInside (Random.Random 5555)).2.1 0 0 100 100000 1 (by decide) (by decide),
   (C9_zero_target sampleInside (Random.Random 5555)).2.2.1 1 10
     (State.mk (Random.mk 5778798385915914481 3810931510762649936 12913259103205255362) 1 2)
     (by decide) (by decide),
   (C9_zero_target sampleInside (Random.Random 5555)).2.2.2 1 (by decide)⟩

theorem trial_alwaysInside (rng : Random) : (trial alwaysInside rng).1 = true := rfl

theorem sweepCounts_pairwise (min max step : Int) (hstep : 0 < step) :
    (sweepCounts min max step).Pairwise (· < ·) := by
  unfold sweepCounts
  rw [List.pairwise_map]
  refine List.Pairwise.imp ?_ (List.pairwise_lt_range _)
  intro a b hab
  have h1 : (a : Int) < (b : Int) := by exact_mod_cast hab
  have := mul_lt_mul_of_pos_right h1 hstep
  omega

/-- C3. For positive `min`, `max` and `step`, every completed sweep records exactly the sample
counts `min + k*step` for `k = 0, ..., K - 1` with `K = max(1, ceil((max - min)/step))`, in
increasing order.  And the sweep does complete: when every window of `B` consecutive trials of
the generator holds an accepted one and `B * (max(min, max) + step)` fits an `int`, so that
neither `min += step` nor `++trials` overflows, then with fuel `B * max(min, max)` for the inner
loops and `K` for the outer loop the sweep returns its records. -/
theorem C3_sweep_samplecounts (inside : Double → Double → Double → Bool) (rng : Random)
    (mode samples min max step : Int) (hmode : mode ≠ 0) (hmin : 0 < min) (_hmax : 0 < max)
    (hstep : 0 < step) :
    (∀ (cap fuel : Nat) (recs : List Record),
      main inside cap fuel rng mode samples min max step = .ok recs →
      recs.map Record.samplecount
        = (List.range (Max.max 1 ⌈((max - min : Int) : ℚ) / (step : ℚ)⌉).toNat).map
            (fun (k : Nat) => min + (k : Int) * step) ∧
      (recs.map Record.samplecount).Pairwise (· < ·)) ∧
    (∀ B : Nat,
      (∀ k : Nat, ∃ n : Nat, n < B ∧ (trial inside (afterTrials inside (k + n) rng)).1 = true) →
      (B : Int) * (Max.max min max + step) ≤ INT_MAX →
      ∀ cap fuel : Nat, (B : Int) * Max.max min max ≤ (cap : Int) →
        (Max.max 1 ⌈((max - min : Int) : ℚ) / (step : ℚ)⌉).toNat ≤ fuel →
        ∃ recs, main inside cap fuel rng mode samples min max step = .ok recs) := by
  constructor
  · intro cap fuel recs h
    rw [main_eq, if_neg hmode, if_neg hmode] at h
    have h1 := sweep_samplecounts inside cap max step hstep fuel _ min [] recs h
    rw [List.map_nil, List.nil_append] at h1
    refine ⟨h1, ?_⟩
    rw [h1]
    exact sweepCounts_pairwise min max step hstep
  · intro B hacc hB cap fuel hcap hfuel
    rw [main_eq, if_neg hmode, if_neg hmode]
    exact sweep_total inside rng B hacc max step (Max.max min max) hstep (le_max_right _ _) hB cap
      hcap fuel _ min [] 0 (by rw [afterTrials_zero]) (le_refl _) (by simp only; omega) hmin
      (le_max_left _ _) (by simp) hfuel

/-- C3 on the sweep `min = 100`, `max = 1000`, `step = 100` with the default generator and an
acceptance test that accepts every proposal: the sweep returns nine records, with the sample
counts 100, 200, ..., 900. -/
theorem C3_sweep_samplecounts_witness :
    ∃ recs, main alwaysInside 1000 9 (Random.Random 5555) 1 1000 100 1000 100 = .ok recs ∧
      recs.map Record.samplecount = [100, 200, 300, 400, 500, 600, 700, 800, 900] := by
  have hK : (Max.max 1 ⌈(((1000 : Int) - 100 : Int) : ℚ) / ((100 : Int) : ℚ)⌉).toNat = 9 := by
    norm_num
    rfl
  have h := C3_sweep_samplecounts alwaysInside (Random.Random 5555) 1 1000 100 1000 100
    (by decide) (by decide) (by decide) (by decide)
  obtain ⟨recs, hrecs⟩ := h.2 1 (fun k => ⟨0, by decide, trial_alwaysInside _⟩) (by decide) 1000 9
    (by decide) (by rw [hK])
  refine ⟨recs, hrecs, ?_⟩
  rw [(h.1 1000 9 recs hrecs).1, hK]
  decide

end HW7
